import Mathlib

/-!
# gguf-metadata-get: JSON escaping and metadata object assembly

A shallow embedding of `examples/crux-tools/gguf-metadata-get.cpp`.

* A `std::string` is a `List Byte`; a byte is a `Fin 256`, whatever the
  signedness of `char` (the signedness is a parameter of the embedding and
  only matters where a `char` is promoted to `int`).
* `json_escape` is the loop of the source, accumulating into `escaped`.
* `main` is a function from the backend and the argument vector to the
  text on the two streams, the exit code and the trace of backend calls.
-/

namespace GgufMetadataGet

/-! ## Bytes and C strings -/

/-- One `char` of storage. -/
abbrev Byte := Fin 256

/-- The bytes of an ASCII string literal of the source. -/
def ascii (s : String) : List Byte := s.toList.map (fun ch => Fin.ofNat ch.toNat)

/-- The value of a `char` holding the byte `b` after promotion to `int`:
`b - 256` for a high byte when `char` is signed, `b` otherwise. -/
def char_value (char_signed : Bool) (b : Byte) : Int :=
  if char_signed = true ∧ 128 ≤ b.val then (b.val : Int) - 256 else (b.val : Int)

/-- The text a NUL-terminated buffer holds: the bytes before the first NUL. -/
def c_string (buf : List Byte) : List Byte := buf.takeWhile (fun b => b ≠ 0)

/-! ## `snprintf(buf, sizeof(buf), "\\u%04x", c)` -/

/-- Lowercase hexadecimal digits of `n`, most significant first (`%x`). -/
def hex_digits (n : Nat) : List Byte := (Nat.toDigits 16 n).map (fun ch => Fin.ofNat ch.toNat)

/-- The text `"\\u%04x"` formats for the `int` argument `v`: `%x` reads the
argument as a 32-bit unsigned value and pads it with zeros to four digits. -/
def format_u04x (v : Int) : List Byte :=
  let digits := hex_digits (v % 2 ^ 32).toNat
  [0x5C, 0x75] ++ List.replicate (4 - digits.length) 0x30 ++ digits

/-- What `snprintf` leaves in a buffer of `size > 0` bytes: at most `size - 1`
bytes of the formatted text and a terminating NUL. -/
def snprintf (size : Nat) (text : List Byte) : List Byte := text.take (size - 1) ++ [0]

/-! ## `json_escape` -/

/-- The body of the loop of `json_escape` for one `char c`: the bytes appended
to `escaped`. The `switch` compares the promoted value of `c`. -/
def json_escape_char (char_signed : Bool) (c : Byte) : List Byte :=
  let v := char_value char_signed c
  if v = 0x22 then [0x5C, 0x22]          -- case '"'
  else if v = 0x5C then [0x5C, 0x5C]     -- case '\\'
  else if v = 0x08 then [0x5C, 0x62]     -- case '\b'
  else if v = 0x0C then [0x5C, 0x66]     -- case '\f'
  else if v = 0x0A then [0x5C, 0x6E]     -- case '\n'
  else if v = 0x0D then [0x5C, 0x72]     -- case '\r'
  else if v = 0x09 then [0x5C, 0x74]     -- case '\t'
  else if 0x00 ≤ v ∧ v ≤ 0x1F then c_string (snprintf 8 (format_u04x v))
  else [c]

/-- The function `json_escape` of the source: `escaped` starts empty and each
`char` of `s`, in order, appends its image. -/
def json_escape (char_signed : Bool) (s : List Byte) : List Byte :=
  s.foldl (fun escaped c => escaped ++ json_escape_char char_signed c) []

/-! ## The backend and the process

The model-loading backend is declared in `llama.h`, which is outside this
file's source; `main` only sees it through the calls below. -/

/-- A call `main` makes into the backend, with its arguments. -/
inductive Call
  | backend_init
  | model_default_params
  | model_load_from_file (path : List Byte) (vocab_only : Bool)
  | model_meta_count
  | model_meta_key_by_index (i : Int) (buf_size : Nat)
  | model_meta_val_str_by_index (i : Int) (buf_size : Nat)
  | model_free
  | backend_free
  deriving DecidableEq, Repr

/-- Modelled from the spec: the loaded-model handle of `llama.h` as the query
interface of §4.1 and §6. `meta_count` is the result of `llama_model_meta_count`;
`meta_key_by_index i n` and `meta_val_str_by_index i n` are the bytes the
accessors leave in a caller's buffer of `n` bytes for index `i` (whatever they
are: nothing is assumed about them here). -/
structure llama_model where
  meta_count : Int
  meta_key_by_index : Int → Nat → List Byte
  meta_val_str_by_index : Int → Nat → List Byte

/-- Modelled from the spec: `load_model(path, params) -> handle | null` of §6,
the result of `llama_model_load_from_file` for a path and the `vocab_only`
flag; `none` is the null handle. -/
structure Backend where
  model_load_from_file : List Byte → Bool → Option llama_model

/-- Modelled from the spec: a backend accessor filling a buffer of `size`
bytes with a text silently "truncated to at most" `size - 1` bytes (§4.1), as
`snprintf` does. -/
def accessor_fill (size : Nat) (text : List Byte) : List Byte := snprintf size text

/-- Modelled from the spec: a loaded model whose Metadata Table (§3) is the
ordered list `t` of (key, value) entries, indexed `0..count-1`. Outside that
range the contract leaves the buffer undefined: no byte of it is determined. -/
def table_model (t : List (List Byte × List Byte)) : llama_model where
  meta_count := (t.length : Int)
  meta_key_by_index := fun i size =>
    if 0 ≤ i then
      match t[i.toNat]? with
      | some e => accessor_fill size e.1
      | none => []
    else []
  meta_val_str_by_index := fun i size =>
    if 0 ≤ i then
      match t[i.toNat]? with
      | some e => accessor_fill size e.2
      | none => []
    else []

/-- What the process has done so far: the bytes written to the two streams
and the backend calls made, oldest first. -/
structure Process where
  stdout : List Byte
  stderr : List Byte
  calls : List Call
  deriving DecidableEq, Repr

/-- A finished run: the streams, the calls and the value `main` returned. -/
structure Run where
  stdout : List Byte
  stderr : List Byte
  calls : List Call
  exit_code : Int
  deriving DecidableEq, Repr

/-- The statement `std::cout << text`. -/
def Process.cout (p : Process) (text : List Byte) : Process :=
  { p with stdout := p.stdout ++ text }

/-- Record a backend call. -/
def Process.call (p : Process) (c : Call) : Process :=
  { p with calls := p.calls ++ [c] }

/-- The constructor `std::string(buf)` for an array `buf` of `size` bytes: the
bytes before the first NUL. With no NUL inside the array the scan runs past
its end, which is undefined behaviour: `none`. -/
def string_from_buffer (size : Nat) (buf : List Byte) : Option (List Byte) :=
  if (0 : Byte) ∈ buf.take size then some (c_string (buf.take size)) else none

/-- One iteration of the loop of `main`, for index `i`. -/
def emit_entry (char_signed : Bool) (model : llama_model) (metadata_count : Int)
    (i : Int) (p : Process) : Option Process :=
  let p := p.call (.model_meta_key_by_index i 256)
  let key_buf := model.meta_key_by_index i 256
  let p := p.call (.model_meta_val_str_by_index i 2048)
  let val_buf := model.meta_val_str_by_index i 2048
  match string_from_buffer 256 key_buf with
  | none => none
  | some key_str =>
    match string_from_buffer 2048 val_buf with
    | none => none
    | some val_str =>
      let p := p.cout (ascii "\"" ++ json_escape char_signed key_str ++ ascii "\":")
      let p := p.cout (ascii "\"" ++ json_escape char_signed val_str ++ ascii "\"")
      if i < metadata_count - 1 then some (p.cout (ascii ",")) else some p

/-- The loop `for (int i = 0; i < metadata_count; ++i)`, run over the indices
still to do. -/
def emit_entries (char_signed : Bool) (model : llama_model) (metadata_count : Int) :
    List Nat → Process → Option Process
  | [], p => some p
  | i :: rest, p =>
    match emit_entry char_signed model metadata_count (i : Int) p with
    | none => none
    | some p1 => emit_entries char_signed model metadata_count rest p1

/-- The function `main` of the source, for the argument vector `argv` (each
entry the memory `argv[i]` points to, read up to its NUL). `none` is
undefined behaviour: a null `argv[0]`, or a scan past the end of a buffer. -/
def main (char_signed : Bool) (backend : Backend) (argv : List (List Byte)) : Option Run :=
  if argv.length < 2 then
    match argv[0]? with
    | none => none
    | some argv0 =>
      some { stdout := []
             stderr := ascii "\x7b\"error\": \"Usage: " ++ c_string argv0
                         ++ ascii " <model_path>\"\x7d" ++ ascii "\n"
             calls := []
             exit_code := 1 }
  else
    match argv[1]? with
    | none => none
    | some argv1 =>
      let model_path := c_string argv1
      let p : Process := { stdout := [], stderr := [], calls := [] }
      let p := p.call .backend_init
      let p := p.call .model_default_params
      let p := p.call (.model_load_from_file model_path true)
      match backend.model_load_from_file model_path true with
      | none =>
        some { stdout := p.stdout
               stderr := p.stderr ++ ascii "\x7b\"error\": \"Failed to load model metadata from "
                           ++ json_escape char_signed model_path ++ ascii "\"\x7d" ++ ascii "\n"
               calls := p.calls ++ [.backend_free]
               exit_code := 1 }
      | some model =>
        let p := p.cout (ascii "\x7b")
        let p := p.call .model_meta_count
        let metadata_count := model.meta_count
        match emit_entries char_signed model metadata_count
                (List.range metadata_count.toNat) p with
        | none => none
        | some p =>
          let p := p.cout (ascii "\x7d" ++ ascii "\n")
          let p := p.call .model_free
          let p := p.call .backend_free
          some { stdout := p.stdout, stderr := p.stderr, calls := p.calls, exit_code := 0 }

/-! ## A reference reader for RFC 8259 texts

These definitions are not part of the program: they are the reader its output
is checked against. It reads JSON text over bytes: string literals, and
objects whose members all have string values. -/

/-- The value of a hexadecimal digit, in either case. -/
def hex_value (b : Byte) : Option Nat :=
  if 0x30 ≤ b.val ∧ b.val ≤ 0x39 then some (b.val - 0x30)
  else if 0x61 ≤ b.val ∧ b.val ≤ 0x66 then some (b.val - 0x61 + 10)
  else if 0x41 ≤ b.val ∧ b.val ≤ 0x46 then some (b.val - 0x41 + 10)
  else none

/-- The code point of `\uXXXX` from its four digits. -/
def hex4_value (h1 h2 h3 h4 : Byte) : Option Nat :=
  match hex_value h1, hex_value h2, hex_value h3, hex_value h4 with
  | some a, some b, some c, some d => some (((a * 16 + b) * 16 + c) * 16 + d)
  | _, _, _, _ => none

/-- The bytes a `\uXXXX` escape stands for: the UTF-8 form of the code point,
one byte below 0x80. A surrogate on its own stands for nothing. -/
def utf8_encode (n : Nat) : Option (List Byte) :=
  if n < 0x80 then some [Fin.ofNat n]
  else if n < 0x800 then some [Fin.ofNat (0xC0 + n / 64), Fin.ofNat (0x80 + n % 64)]
  else if 0xD800 ≤ n ∧ n < 0xE000 then none
  else some [Fin.ofNat (0xE0 + n / 4096), Fin.ofNat (0x80 + n / 64 % 64), Fin.ofNat (0x80 + n % 64)]

/-- The byte a two-character escape `\e` stands for. -/
def simple_escape (e : Byte) : Option Byte :=
  if e = 0x22 then some 0x22
  else if e = 0x5C then some 0x5C
  else if e = 0x2F then some 0x2F
  else if e = 0x62 then some 0x08
  else if e = 0x66 then some 0x0C
  else if e = 0x6E then some 0x0A
  else if e = 0x72 then some 0x0D
  else if e = 0x74 then some 0x09
  else none

/-- Read the characters of a string literal after its opening quote, up to
and including the closing quote: the decoded bytes and the rest of the input.
A raw control byte, a bad escape or a missing closing quote is an error. -/
def read_chars : List Byte → Option (List Byte × List Byte)
  | [] => none
  | b :: rest =>
    if b = 0x22 then some ([], rest)
    else if b = 0x5C then
      match rest with
      | [] => none
      | e :: rest1 =>
        if e = 0x75 then
          match rest1 with
          | h1 :: h2 :: h3 :: h4 :: rest2 =>
            match (hex4_value h1 h2 h3 h4).bind utf8_encode with
            | some bs => (read_chars rest2).map (fun dr => (bs ++ dr.1, dr.2))
            | none => none
          | _ => none
        else
          match simple_escape e with
          | some x => (read_chars rest1).map (fun dr => (x :: dr.1, dr.2))
          | none => none
    else if b.val < 0x20 then none
    else (read_chars rest).map (fun dr => (b :: dr.1, dr.2))

/-- Read one string literal: the opening quote, then `read_chars`. -/
def read_string : List Byte → Option (List Byte × List Byte)
  | [] => none
  | b :: rest => if b = 0x22 then read_chars rest else none

/-- Decode a text that is one string literal and nothing else. -/
def decode_string_literal (text : List Byte) : Option (List Byte) :=
  match read_string text with
  | some (d, []) => some d
  | _ => none

/-- The escape letters `json_escape` uses after a backslash, `u` apart. -/
def escape_letter (e : Byte) : Bool :=
  e = 0x22 || e = 0x5C || e = 0x62 || e = 0x66 || e = 0x6E || e = 0x72 || e = 0x74

/-- The characters between the quotes of a string literal written with the
escapes `\"`, `\\`, `\b`, `\f`, `\n`, `\r`, `\t` and `\u` plus four hex digits
only: no control byte, no quote outside an escape pair, no other use of a
backslash. -/
def escaped_text_ok : List Byte → Bool
  | [] => true
  | b :: rest =>
    if b = 0x5C then
      match rest with
      | [] => false
      | e :: rest1 =>
        if e = 0x75 then
          match rest1 with
          | h1 :: h2 :: h3 :: h4 :: rest2 =>
            (hex_value h1).isSome && (hex_value h2).isSome && (hex_value h3).isSome
              && (hex_value h4).isSome && escaped_text_ok rest2
          | _ => false
        else
          escape_letter e && escaped_text_ok rest1
    else if b = 0x22 then false
    else if b.val < 0x20 then false
    else escaped_text_ok rest

/-- Skip insignificant whitespace: space, tab, line feed, carriage return. -/
def skip_ws : List Byte → List Byte
  | [] => []
  | b :: rest =>
    if b = 0x20 ∨ b = 0x09 ∨ b = 0x0A ∨ b = 0x0D then skip_ws rest else b :: rest

/-- Read one member `string : string`. -/
def read_member (text : List Byte) : Option ((List Byte × List Byte) × List Byte) :=
  match read_string text with
  | none => none
  | some (k, t1) =>
    match skip_ws t1 with
    | [] => none
    | c :: t2 =>
      if c = 0x3A then
        match read_string (skip_ws t2) with
        | none => none
        | some (v, t3) => some ((k, v), t3)
      else none

/-- Read members separated by commas up to and including the closing brace. -/
def read_members : Nat → List Byte → Option (List (List Byte × List Byte) × List Byte)
  | 0, _ => none
  | fuel + 1, text =>
    match read_member text with
    | none => none
    | some (m, t1) =>
      match skip_ws t1 with
      | [] => none
      | c :: t2 =>
        if c = 0x7D then some ([m], t2)
        else if c = 0x2C then
          match read_members fuel (skip_ws t2) with
          | none => none
          | some (ms, t3) => some (m :: ms, t3)
        else none

/-- Parse a text that is one JSON object with string-valued members and
nothing else but whitespace: its members, decoded, in order. Every member
takes at least one byte, so the length of the text is fuel enough. -/
def parse_object (text : List Byte) : Option (List (List Byte × List Byte)) :=
  match skip_ws text with
  | [] => none
  | c :: t1 =>
    if c = 0x7B then
      match skip_ws t1 with
      | [] => none
      | d :: t2 =>
        if d = 0x7D then (if skip_ws t2 = [] then some [] else none)
        else
          match read_members text.length (d :: t2) with
          | none => none
          | some (ms, t3) => if skip_ws t3 = [] then some ms else none
    else none

/-! ## The object the specification describes -/

/-- One field as the specification words it: quote, escaped key, quote,
colon, quote, escaped value, quote, with no whitespace. -/
def spec_field (char_signed : Bool) (k v : List Byte) : List Byte :=
  ascii "\"" ++ json_escape char_signed k ++ ascii "\"" ++ ascii ":"
    ++ ascii "\"" ++ json_escape char_signed v ++ ascii "\""

/-- The text the specification describes for the entries `es`: an opening
brace, the fields in order with a single comma between consecutive fields, a
closing brace and one newline. -/
def spec_object (char_signed : Bool) (es : List (List Byte × List Byte)) : List Byte :=
  ascii "\x7b" ++ List.intercalate (ascii ",") (es.map (fun e => spec_field char_signed e.1 e.2))
    ++ ascii "\x7d" ++ ascii "\n"

/-- The text of a table key as `main` gets it through the 256-byte buffer:
cut to 255 bytes, and the bytes before the first NUL of those. -/
def key_text (k : List Byte) : List Byte := c_string (k.take 255)

/-- The text of a table value as `main` gets it through the 2048-byte buffer. -/
def val_text (v : List Byte) : List Byte := c_string (v.take 2047)

/-- The entries of a table as `main` gets them through its two buffers. -/
def buffered (t : List (List Byte × List Byte)) : List (List Byte × List Byte) :=
  t.map (fun e => (key_text e.1, val_text e.2))

/-- The entries of a loaded model as `main` reads them from its buffers, for
the indices `0..meta_count-1`; an entry whose buffer holds no NUL reads as
empty here (`main` itself is undefined there). -/
def read_entries (m : llama_model) : List (List Byte × List Byte) :=
  (List.range m.meta_count.toNat).map (fun (i : Nat) =>
    ((string_from_buffer 256 (m.meta_key_by_index (i : Int) 256)).getD [],
     (string_from_buffer 2048 (m.meta_val_str_by_index (i : Int) 2048)).getD []))

/-- The calls `main` makes for the indices `0..n-1`, in order. -/
def accessor_calls (n : Nat) : List Call :=
  (List.range n).flatMap (fun (i : Nat) =>
    [.model_meta_key_by_index (i : Int) 256, .model_meta_val_str_by_index (i : Int) 2048])

/-- A backend whose only loadable file is `m.gguf`, with metadata table `t`. -/
def example_backend (t : List (List Byte × List Byte)) : Backend where
  model_load_from_file := fun path _ => if path = ascii "m.gguf" then some (table_model t) else none

/-- The calls that query the metadata table. -/
def Call.is_metadata_query : Call → Bool
  | .model_meta_count => true
  | .model_meta_key_by_index _ _ => true
  | .model_meta_val_str_by_index _ _ => true
  | _ => false

/-- The calls to the two by-index accessors. -/
def Call.is_accessor : Call → Bool
  | .model_meta_key_by_index _ _ => true
  | .model_meta_val_str_by_index _ _ => true
  | _ => false

/-- A backend whose model reports one entry and leaves 256 bytes `a` and no
NUL in the key buffer (and an empty string in the value buffer). -/
def unterminated_backend : Backend where
  model_load_from_file := fun _ _ =>
    some { meta_count := 1
           meta_key_by_index := fun _ _ => List.replicate 256 0x61
           meta_val_str_by_index := fun _ _ => [0] }

/-- Count the commas of a JSON text that stand outside string literals.
Inside a literal (`in_string`) a backslash takes the next byte with it and
a quote ends the literal. -/
def separator_commas : Bool → List Byte → Nat
  | _, [] => 0
  | false, b :: rest =>
    if b = 0x22 then separator_commas true rest
    else if b = 0x2C then separator_commas false rest + 1
    else separator_commas false rest
  | true, b :: rest =>
    if b = 0x5C then
      match rest with
      | [] => 0
      | _ :: rest1 => separator_commas true rest1
    else if b = 0x22 then separator_commas false rest
    else separator_commas true rest

/-- The lowercase hexadecimal digit of `d < 16`, for stating what `\u00XX`
must look like. -/
def lower_hex_digit (d : Nat) : Byte := (ascii "0123456789abcdef").getD d 0

/-! ## The shapes of the image of one byte -/

/-- A check of the image `out` of the byte `c`: it has one of three shapes,
each with what the reference reader needs to know about it. -/
def escape_shape_ok (c : Byte) : List Byte → Bool
  | [x] => x = c && decide (0x20 ≤ c.val) && c ≠ 0x22 && c ≠ 0x5C
  | [a, e] => a = 0x5C && e ≠ 0x75 && simple_escape e = some c && escape_letter e
  | [a, u, z1, z2, h3, h4] =>
    a = 0x5C && u = 0x75 && z1 = 0x30 && z2 = 0x30
      && (hex4_value 0x30 0x30 h3 h4).bind utf8_encode = some [c]
      && (hex_value h3).isSome && (hex_value h4).isSome
  | _ => false

/-- The three shapes, as a proposition. -/
def escape_shape (c : Byte) (out : List Byte) : Prop :=
  (out = [c] ∧ 0x20 ≤ c.val ∧ c ≠ 0x22 ∧ c ≠ 0x5C) ∨
  (∃ e, out = [0x5C, e] ∧ e ≠ 0x75 ∧ simple_escape e = some c ∧ escape_letter e = true) ∨
  (∃ h3 h4, out = [0x5C, 0x75, 0x30, 0x30, h3, h4] ∧
    (hex4_value 0x30 0x30 h3 h4).bind utf8_encode = some [c] ∧
    (hex_value h3).isSome = true ∧ (hex_value h4).isSome = true)

/-! ## Facts about `json_escape` -/

theorem foldl_append_flatMap {α β : Type} (f : α → List β) (s : List α) (init : List β) :
    s.foldl (fun acc c => acc ++ f c) init = init ++ s.flatMap f := by
  induction s generalizing init with
  | nil => simp
  | cons c s ih => simp [List.foldl_cons, ih, List.flatMap_cons, List.append_assoc]

theorem json_escape_eq_flatMap (sg : Bool) (s : List Byte) :
    json_escape sg s = s.flatMap (json_escape_char sg) := by
  unfold json_escape
  rw [foldl_append_flatMap]
  simp

@[simp] theorem json_escape_nil (sg : Bool) : json_escape sg [] = [] := rfl

theorem json_escape_cons (sg : Bool) (c : Byte) (s : List Byte) :
    json_escape sg (c :: s) = json_escape_char sg c ++ json_escape sg s := by
  simp [json_escape_eq_flatMap, List.flatMap_cons]

theorem json_escape_append (sg : Bool) (a b : List Byte) :
    json_escape sg (a ++ b) = json_escape sg a ++ json_escape sg b := by
  simp [json_escape_eq_flatMap, List.flatMap_append]

set_option maxRecDepth 100000 in
theorem json_escape_char_signed_eq :
    ∀ (sg : Bool) (c : Byte), json_escape_char sg c = json_escape_char false c := by
  decide

theorem escape_shape_of_ok (c : Byte) (out : List Byte) (h : escape_shape_ok c out = true) :
    escape_shape c out := by
  match out, h with
  | [x], h =>
    simp only [escape_shape_ok, Bool.and_eq_true, decide_eq_true_eq, bne_iff_ne, ne_eq,
      Bool.not_eq_true', decide_eq_false_iff_not] at h
    left
    obtain ⟨⟨⟨h1, h2⟩, h3⟩, h4⟩ := h
    exact ⟨by rw [h1], h2, by simpa using h3, by simpa using h4⟩
  | [a, e], h =>
    simp only [escape_shape_ok, Bool.and_eq_true, decide_eq_true_eq] at h
    right; left
    obtain ⟨⟨⟨h1, h2⟩, h3⟩, h4⟩ := h
    exact ⟨e, by rw [h1], by simpa using h2, h3, h4⟩
  | [a, u, z1, z2, h3, h4], h =>
    simp only [escape_shape_ok, Bool.and_eq_true, decide_eq_true_eq] at h
    right; right
    obtain ⟨⟨⟨⟨⟨⟨h1, h2⟩, h5⟩, h6⟩, h7⟩, h8⟩, h9⟩ := h
    exact ⟨h3, h4, by rw [h1, h2, h5, h6], h7, h8, h9⟩

set_option maxRecDepth 100000 in
theorem json_escape_char_ok : ∀ c : Byte, escape_shape_ok c (json_escape_char false c) = true := by
  decide

theorem json_escape_char_class (c : Byte) : escape_shape c (json_escape_char false c) :=
  escape_shape_of_ok c _ (json_escape_char_ok c)

set_option maxRecDepth 100000 in
theorem escape_letter_ge : ∀ e : Byte, escape_letter e = true → 0x20 ≤ e.val := by
  decide

set_option maxRecDepth 100000 in
theorem hex_value_ge : ∀ h : Byte, (hex_value h).isSome = true → 0x20 ≤ h.val := by
  decide

theorem json_escape_char_no_control (c : Byte) :
    ∀ b ∈ json_escape_char false c, 0x20 ≤ b.val := by
  intro b hb
  rcases json_escape_char_class c with ⟨h, h20, -, -⟩ | ⟨e, h, -, -, hl⟩ | ⟨x3, x4, h, -, h3, h4⟩
  · rw [h] at hb
    simp only [List.mem_singleton] at hb
    rw [hb]; exact h20
  · rw [h] at hb
    simp only [List.mem_cons, List.mem_singleton, List.not_mem_nil, or_false] at hb
    rcases hb with hb | hb
    · rw [hb]; decide
    · rw [hb]; exact escape_letter_ge e hl
  · rw [h] at hb
    simp only [List.mem_cons, List.mem_singleton, List.not_mem_nil, or_false] at hb
    rcases hb with hb | hb | hb | hb | hb | hb
    · rw [hb]; decide
    · rw [hb]; decide
    · rw [hb]; decide
    · rw [hb]; decide
    · rw [hb]; exact hex_value_ge x3 h3
    · rw [hb]; exact hex_value_ge x4 h4

theorem read_chars_quote (rest : List Byte) : read_chars (0x22 :: rest) = some ([], rest) := by
  rw [read_chars.eq_def]; simp

theorem read_chars_plain (b : Byte) (rest : List Byte) (hq : b ≠ 0x22) (hb : b ≠ 0x5C)
    (h20 : 0x20 ≤ b.val) :
    read_chars (b :: rest) = (read_chars rest).map (fun dr => (b :: dr.1, dr.2)) := by
  have : ¬ b.val < 0x20 := by omega
  rw [read_chars.eq_def]; simp [hq, hb, this]

theorem read_chars_simple (e x : Byte) (rest : List Byte) (hu : e ≠ 0x75)
    (hs : simple_escape e = some x) :
    read_chars (0x5C :: e :: rest) = (read_chars rest).map (fun dr => (x :: dr.1, dr.2)) := by
  rw [read_chars.eq_def]; simp [hu, hs]

theorem read_chars_u (h1 h2 h3 h4 : Byte) (bs rest : List Byte)
    (hx : (hex4_value h1 h2 h3 h4).bind utf8_encode = some bs) :
    read_chars (0x5C :: 0x75 :: h1 :: h2 :: h3 :: h4 :: rest)
      = (read_chars rest).map (fun dr => (bs ++ dr.1, dr.2)) := by
  rw [read_chars.eq_def]; simp [hx]

theorem read_chars_escape_char (sg : Bool) (c : Byte) (rest : List Byte) :
    read_chars (json_escape_char sg c ++ rest)
      = (read_chars rest).map (fun dr => (c :: dr.1, dr.2)) := by
  rw [json_escape_char_signed_eq sg c]
  rcases json_escape_char_class c with ⟨h, h20, hq, hb⟩ | ⟨e, h, hu, hs, -⟩ | ⟨h3, h4, h, hx, -, -⟩
  · rw [h]
    exact read_chars_plain c rest hq hb h20
  · rw [h]
    exact read_chars_simple e c rest hu hs
  · rw [h]
    exact read_chars_u _ _ _ _ [c] rest hx

theorem read_chars_escape (sg : Bool) (s rest : List Byte) :
    read_chars (json_escape sg s ++ 0x22 :: rest) = some (s, rest) := by
  induction s with
  | nil => exact read_chars_quote rest
  | cons c s ih =>
    rw [json_escape_cons, List.append_assoc, read_chars_escape_char, ih]
    rfl

theorem decode_escape (sg : Bool) (s : List Byte) :
    decode_string_literal ([0x22] ++ json_escape sg s ++ [0x22]) = some s := by
  simp [decode_string_literal, read_string, read_chars_escape]

/-- C1: decoding the string literal `"` ++ `json_escape s` ++ `"` with the
reference reader gives back exactly `s`, for every byte sequence `s` (and
either signedness of `char`); in particular `json_escape` is injective. -/
theorem json_escape_roundtrip (char_signed : Bool) :
    (∀ s : List Byte,
        decode_string_literal ([0x22] ++ json_escape char_signed s ++ [0x22]) = some s)
      ∧ Function.Injective (json_escape char_signed) := by
  refine ⟨decode_escape char_signed, ?_⟩
  intro a b hab
  have ha := decode_escape char_signed a
  rw [hab, decode_escape] at ha
  exact (Option.some.inj ha).symm

/-! ### The escaped text is a well-formed string body -/

theorem escaped_text_ok_escape_char (sg : Bool) (c : Byte) (rest : List Byte) :
    escaped_text_ok (json_escape_char sg c ++ rest) = escaped_text_ok rest := by
  rw [json_escape_char_signed_eq sg c]
  rcases json_escape_char_class c with ⟨h, h20, hq, hb⟩ | ⟨e, h, hu, -, hl⟩ | ⟨x3, x4, h, -, h3, h4⟩
  · rw [h]
    have : ¬ c.val < 0x20 := by omega
    rw [escaped_text_ok.eq_def]; simp [hq, hb, this]
  · rw [h, escaped_text_ok.eq_def]
    simp only [List.cons_append, List.nil_append, if_true, if_neg hu, hl, Bool.true_and]
  · have h0 : (hex_value (0x30 : Byte)).isSome = true := by decide
    rw [h, escaped_text_ok.eq_def]
    simp [h0, h3, h4]

theorem escaped_text_ok_escape (sg : Bool) (s : List Byte) :
    escaped_text_ok (json_escape sg s) = true := by
  induction s with
  | nil => rfl
  | cons c s ih =>
    have := escaped_text_ok_escape_char sg c (json_escape sg s)
    rw [json_escape_cons, this, ih]

theorem json_escape_no_control (sg : Bool) (s : List Byte) :
    ∀ b ∈ json_escape sg s, 0x20 ≤ b.val := by
  intro b hb
  rw [json_escape_eq_flatMap, List.mem_flatMap] at hb
  obtain ⟨c, -, hc⟩ := hb
  rw [json_escape_char_signed_eq sg c] at hc
  exact json_escape_char_no_control c b hc

/-- C2: for every byte sequence `s` the text quote, `json_escape s`, quote is
a valid string literal of the byte-level RFC 8259 grammar: `json_escape s`
holds no byte of 0x00..0x1F, every quote in it is the second byte of an escape
pair and every backslash starts one of the escapes `\"`, `\\`, `\b`, `\f`,
`\n`, `\r`, `\t`, `\u` plus four hex digits (`escaped_text_ok`), and the
reference reader accepts the literal. It holds in particular for the input
made of the quote, the backslash and all of 0x00..0x1F. -/
theorem json_escape_valid_literal (char_signed : Bool) (s : List Byte) :
    (∀ b ∈ json_escape char_signed s, 0x20 ≤ b.val)
      ∧ escaped_text_ok (json_escape char_signed s) = true
      ∧ (decode_string_literal ([0x22] ++ json_escape char_signed s ++ [0x22])).isSome = true
      ∧ escaped_text_ok (json_escape char_signed
            ([0x22, 0x5C] ++ (List.range 0x20).map Fin.ofNat)) = true := by
  refine ⟨json_escape_no_control char_signed s, escaped_text_ok_escape char_signed s, ?_,
    escaped_text_ok_escape char_signed _⟩
  rw [decode_escape]
  rfl

/-! ### The images of the individual bytes -/

/-- C3: each of the seven named bytes is mapped to its two-character escape:
the quote to `\"`, the backslash to `\\`, 0x08 to `\b`, 0x0C to `\f`, 0x0A to
`\n`, 0x0D to `\r`, 0x09 to `\t`; and `He said "hi"` followed by a line feed
becomes `He said \"hi\"\n` with a backslash and the letter n, and holds no
line-feed byte. -/
theorem json_escape_named_bytes (char_signed : Bool) :
    json_escape char_signed [0x22] = ascii "\\\""
      ∧ json_escape char_signed [0x5C] = ascii "\\\\"
      ∧ json_escape char_signed [0x08] = ascii "\\b"
      ∧ json_escape char_signed [0x0C] = ascii "\\f"
      ∧ json_escape char_signed [0x0A] = ascii "\\n"
      ∧ json_escape char_signed [0x0D] = ascii "\\r"
      ∧ json_escape char_signed [0x09] = ascii "\\t"
      ∧ json_escape char_signed (ascii "He said \"hi\"" ++ [0x0A])
          = ascii "He said \\\"hi\\\"" ++ [0x5C, 0x6E]
      ∧ (0x0A : Byte) ∉ json_escape char_signed (ascii "He said \"hi\"" ++ [0x0A]) := by
  cases char_signed <;> decide

set_option maxRecDepth 100000 in
/-- C4: a byte `b` of 0x00..0x1F other than 0x08, 0x09, 0x0A, 0x0C, 0x0D is
mapped to the six bytes backslash, `u`, `0`, `0` and the two lowercase
hexadecimal digits of `b`; the text `snprintf` formats is 6 bytes long and the
8-byte buffer holds all of it. -/
theorem json_escape_control_u00 (char_signed : Bool) (b : Byte) (hb : b.val ≤ 0x1F)
    (h08 : b ≠ 0x08) (h09 : b ≠ 0x09) (h0A : b ≠ 0x0A) (h0C : b ≠ 0x0C) (h0D : b ≠ 0x0D) :
    json_escape char_signed [b]
        = [0x5C, 0x75, 0x30, 0x30, lower_hex_digit (b.val / 16), lower_hex_digit (b.val % 16)]
      ∧ (format_u04x (char_value char_signed b)).length = 6
      ∧ c_string (snprintf 8 (format_u04x (char_value char_signed b)))
          = format_u04x (char_value char_signed b) := by
  revert b
  cases char_signed <;> decide

/-- C4 at the bytes 0x1F and 0x00: `\u001f` and `\u0000`. -/
theorem json_escape_control_u00_witness :
    json_escape true [0x1F] = ascii "\\u001f" ∧ json_escape true [0x00] = ascii "\\u0000" :=
  ⟨(json_escape_control_u00 true 0x1F (by decide) (by decide) (by decide) (by decide)
      (by decide) (by decide)).1,
   (json_escape_control_u00 true 0x00 (by decide) (by decide) (by decide) (by decide)
      (by decide) (by decide)).1⟩

theorem json_escape_char_plain (sg : Bool) (b : Byte) (hq : b ≠ 0x22) (hb : b ≠ 0x5C)
    (h20 : 0x20 ≤ b.val) : json_escape_char sg b = [b] := by
  have hv : char_value sg b = (b.val : Int) ∨ char_value sg b = (b.val : Int) - 256 := by
    unfold char_value; split <;> simp
  have hv2 : char_value sg b = (b.val : Int) - 256 → 128 ≤ b.val := by
    unfold char_value; split
    · intro _; omega
    · intro h; omega
  have hq2 : b.val ≠ 0x22 := fun h => hq (Fin.ext h)
  have hb2 : b.val ≠ 0x5C := fun h => hb (Fin.ext h)
  have hlt := b.isLt
  unfold json_escape_char
  simp only
  split_ifs <;> first | rfl | (exfalso; omega)

/-- C5: a byte that is not the quote, not the backslash and not below 0x20 is
emitted unchanged, 0x7F and the high bytes 0x80..0xFF included; so a byte
sequence holding no quote, no backslash and no byte below 0x20 is its own
image. -/
theorem json_escape_passthrough (char_signed : Bool) (s : List Byte)
    (h : ∀ b ∈ s, b ≠ 0x22 ∧ b ≠ 0x5C ∧ 0x20 ≤ b.val) :
    (∀ b ∈ s, json_escape_char char_signed b = [b]) ∧ json_escape char_signed s = s := by
  have h1 : ∀ b ∈ s, json_escape_char char_signed b = [b] := fun b hb =>
    json_escape_char_plain char_signed b (h b hb).1 (h b hb).2.1 (h b hb).2.2
  refine ⟨h1, ?_⟩
  induction s with
  | nil => rfl
  | cons c s ih =>
    rw [json_escape_cons, h1 c (List.mem_cons_self c s),
      ih (fun b hb => h b (List.mem_cons_of_mem c hb)) (fun b hb => h1 b (List.mem_cons_of_mem c hb))]
    rfl

set_option maxRecDepth 100000 in
/-- C5 at 0x7F, the high bytes 0x80 and 0xFF and the two-byte sequence C3 A9,
with `char` signed. -/
theorem json_escape_passthrough_witness :
    json_escape true [0x7F, 0x80, 0xFF, 0xC3, 0xA9] = [0x7F, 0x80, 0xFF, 0xC3, 0xA9] :=
  (json_escape_passthrough true [0x7F, 0x80, 0xFF, 0xC3, 0xA9] (by decide)).2

/-- C6: `json_escape s` is the concatenation, in input order, of the images
`json_escape_char c` of the bytes `c` of `s`, each image depending on its own
byte only; the empty input gives the empty output and `json_escape` of `a ++ b`
is `json_escape a ++ json_escape b`. -/
theorem json_escape_bytewise (char_signed : Bool) :
    (∀ s : List Byte, json_escape char_signed s = s.flatMap (json_escape_char char_signed))
      ∧ json_escape char_signed [] = []
      ∧ ∀ a b : List Byte,
          json_escape char_signed (a ++ b) = json_escape char_signed a ++ json_escape char_signed b :=
  ⟨json_escape_eq_flatMap char_signed, rfl, json_escape_append char_signed⟩

/-! ## Facts about `main` -/

theorem c_string_append_nul (l : List Byte) : c_string (l ++ [0]) = c_string l := by
  unfold c_string
  induction l with
  | nil => simp
  | cons a l ih =>
    by_cases h : a = 0
    · simp [List.takeWhile_cons, h]
    · simp only [List.cons_append, List.takeWhile_cons, ne_eq, h, not_false_eq_true,
        decide_True, if_true, List.cons.injEq, true_and]
      exact ih

theorem ascii_quote_colon : ascii "\":" = ascii "\"" ++ ascii ":" := by decide

theorem string_from_buffer_fill (size : Nat) (text : List Byte) (hs : 0 < size) :
    string_from_buffer size (accessor_fill size text) = some (c_string (text.take (size - 1))) := by
  have hlen : (text.take (size - 1) ++ [0]).length ≤ size := by
    simp only [List.length_append, List.length_take, List.length_singleton]
    omega
  unfold string_from_buffer accessor_fill snprintf
  rw [List.take_of_length_le hlen, if_pos (by simp), c_string_append_nul]

theorem emit_entry_some (sg : Bool) (m : llama_model) (count i : Int) (p : Process)
    (k v : List Byte)
    (hk : string_from_buffer 256 (m.meta_key_by_index i 256) = some k)
    (hv : string_from_buffer 2048 (m.meta_val_str_by_index i 2048) = some v) :
    emit_entry sg m count i p
      = some { stdout := p.stdout ++ (spec_field sg k v
                  ++ if i < count - 1 then ascii "," else [])
               stderr := p.stderr
               calls := p.calls ++ [.model_meta_key_by_index i 256,
                  .model_meta_val_str_by_index i 2048] } := by
  unfold emit_entry
  simp only [hk, hv, Process.call, Process.cout, spec_field, ascii_quote_colon]
  split <;> simp [List.append_assoc]

theorem emit_entries_some (sg : Bool) (m : llama_model) (count : Int)
    (K V : Nat → List Byte) (idxs : List Nat) (p : Process)
    (hk : ∀ i ∈ idxs, string_from_buffer 256 (m.meta_key_by_index (i : Int) 256) = some (K i))
    (hv : ∀ i ∈ idxs,
      string_from_buffer 2048 (m.meta_val_str_by_index (i : Int) 2048) = some (V i)) :
    emit_entries sg m count idxs p
      = some { stdout := p.stdout ++ idxs.flatMap (fun i => spec_field sg (K i) (V i)
                  ++ if (i : Int) < count - 1 then ascii "," else [])
               stderr := p.stderr
               calls := p.calls ++ idxs.flatMap (fun (i : Nat) =>
                  [.model_meta_key_by_index (i : Int) 256,
                   .model_meta_val_str_by_index (i : Int) 2048]) } := by
  induction idxs generalizing p with
  | nil => simp [emit_entries]
  | cons i rest ih =>
    rw [emit_entries, emit_entry_some sg m count i p (K i) (V i)
      (hk i (List.mem_cons_self i rest)) (hv i (List.mem_cons_self i rest))]
    simp only
    rw [ih _ (fun j hj => hk j (List.mem_cons_of_mem i hj))
      (fun j hj => hv j (List.mem_cons_of_mem i hj))]
    simp [List.flatMap_cons, List.append_assoc]

theorem intercalate_cons_cons (sep a b : List Byte) (l : List (List Byte)) :
    List.intercalate sep (a :: b :: l) = a ++ sep ++ List.intercalate sep (b :: l) := by
  simp [List.intercalate, List.intersperse]

theorem flatMap_range'_intercalate (F : Nat → List Byte) (sep : List Byte)
    (fs : List (List Byte)) (s : Nat) (n : Int) (hn : n = (s : Int) + (fs.length : Int))
    (hF : ∀ j, j < fs.length → some (F (s + j)) = fs[j]?) :
    (List.range' s fs.length).flatMap
        (fun i => F i ++ if (i : Int) < n - 1 then sep else [])
      = List.intercalate sep fs := by
  induction fs generalizing s with
  | nil => simp [List.intercalate]
  | cons f fs ih =>
    have h0 : F s = f := by
      have := hF 0 (by simp)
      simpa using this
    have hrest : ∀ j, j < fs.length → some (F (s + 1 + j)) = fs[j]? := by
      intro j hj
      have := hF (j + 1) (by simp; omega)
      rw [List.getElem?_cons_succ] at this
      rw [← this]
      congr 2
      omega
    rw [List.length_cons, List.range'_succ, List.flatMap_cons, h0,
      ih (s + 1) (by rw [hn]; simp; omega) hrest]
    cases fs with
    | nil =>
      have : ¬ ((s : Int) < n - 1) := by rw [hn]; simp
      simp [this, List.intercalate]
    | cons g fs =>
      have : (s : Int) < n - 1 := by rw [hn]; simp; omega
      rw [if_pos this, intercalate_cons_cons]

theorem table_key_buffer (t : List (List Byte × List Byte)) (i : Nat) (e : List Byte × List Byte)
    (he : t[i]? = some e) :
    string_from_buffer 256 ((table_model t).meta_key_by_index (i : Int) 256)
      = some (key_text e.1) := by
  simp only [table_model, Int.toNat_ofNat, he, Int.natCast_nonneg, if_true]
  exact string_from_buffer_fill 256 e.1 (by decide)

theorem table_val_buffer (t : List (List Byte × List Byte)) (i : Nat) (e : List Byte × List Byte)
    (he : t[i]? = some e) :
    string_from_buffer 2048 ((table_model t).meta_val_str_by_index (i : Int) 2048)
      = some (val_text e.2) := by
  simp only [table_model, Int.toNat_ofNat, he, Int.natCast_nonneg, if_true]
  exact string_from_buffer_fill 2048 e.2 (by decide)

theorem main_loaded (sg : Bool) (B : Backend) (a0 p : List Byte) (rest : List (List Byte))
    (m : llama_model) (K V : Nat → List Byte)
    (hload : B.model_load_from_file (c_string p) true = some m)
    (hk : ∀ i ∈ List.range m.meta_count.toNat,
      string_from_buffer 256 (m.meta_key_by_index (i : Int) 256) = some (K i))
    (hv : ∀ i ∈ List.range m.meta_count.toNat,
      string_from_buffer 2048 (m.meta_val_str_by_index (i : Int) 2048) = some (V i)) :
    main sg B (a0 :: p :: rest)
      = some { stdout := ascii "\x7b" ++ (List.range m.meta_count.toNat).flatMap
                  (fun i => spec_field sg (K i) (V i)
                    ++ if (i : Int) < m.meta_count - 1 then ascii "," else [])
                  ++ ascii "\x7d" ++ ascii "\n"
               stderr := []
               calls := [.backend_init, .model_default_params,
                    .model_load_from_file (c_string p) true, .model_meta_count]
                  ++ accessor_calls m.meta_count.toNat ++ [.model_free, .backend_free]
               exit_code := 0 } := by
  unfold main
  simp only [List.length_cons, show ¬ (rest.length + 1 + 1 < 2) by omega, if_false,
    List.getElem?_cons_succ, List.getElem?_cons_zero, hload, Process.call, Process.cout]
  rw [emit_entries_some sg m m.meta_count K V _ _ hk hv]
  simp [accessor_calls, List.append_assoc]

theorem main_table (sg : Bool) (B : Backend) (a0 p : List Byte) (rest : List (List Byte))
    (t : List (List Byte × List Byte))
    (hload : B.model_load_from_file (c_string p) true = some (table_model t)) :
    main sg B (a0 :: p :: rest)
      = some { stdout := spec_object sg (buffered t)
               stderr := []
               calls := [.backend_init, .model_default_params,
                    .model_load_from_file (c_string p) true, .model_meta_count]
                  ++ accessor_calls t.length ++ [.model_free, .backend_free]
               exit_code := 0 } := by
  have hcount : (table_model t).meta_count = (t.length : Int) := rfl
  have hget : ∀ i ∈ List.range (table_model t).meta_count.toNat,
      t[i]? = some (t.getD i ([], [])) := by
    intro i hi
    rw [hcount, Int.toNat_ofNat, List.mem_range] at hi
    simp [List.getD, List.getElem?_eq_getElem hi]
  rw [main_loaded sg B a0 p rest (table_model t)
    (fun i => key_text (t.getD i ([], [])).1) (fun i => val_text (t.getD i ([], [])).2) hload
    (fun i hi => table_key_buffer t i _ (hget i hi))
    (fun i hi => table_val_buffer t i _ (hget i hi))]
  have hobj := flatMap_range'_intercalate
    (fun i => spec_field sg (key_text (t.getD i ([], [])).1) (val_text (t.getD i ([], [])).2))
    (ascii ",") ((buffered t).map (fun e => spec_field sg e.1 e.2)) 0 (t.length : Int)
    (by simp [buffered])
    (by
      intro j hj
      simp only [buffered, List.length_map] at hj
      simp [buffered, List.getD, List.getElem?_eq_getElem hj])
  simp only [buffered, List.length_map] at hobj
  simp only [hcount, Int.toNat_ofNat, List.range_eq_range', spec_object, buffered]
  rw [hobj]


theorem sep_in_plain (b : Byte) (rest : List Byte) (hq : b ≠ 0x22) (hb : b ≠ 0x5C) :
    separator_commas true (b :: rest) = separator_commas true rest := by
  rw [separator_commas.eq_def]; simp [hq, hb]

theorem sep_in_escape (e : Byte) (rest : List Byte) :
    separator_commas true (0x5C :: e :: rest) = separator_commas true rest := by
  rw [separator_commas.eq_def]; simp

theorem sep_in_quote (rest : List Byte) :
    separator_commas true (0x22 :: rest) = separator_commas false rest := by
  rw [separator_commas.eq_def]; simp

theorem sep_out_quote (rest : List Byte) :
    separator_commas false (0x22 :: rest) = separator_commas true rest := by
  rw [separator_commas.eq_def]; simp

theorem sep_out_comma (rest : List Byte) :
    separator_commas false (0x2C :: rest) = separator_commas false rest + 1 := by
  rw [separator_commas.eq_def]; simp

theorem sep_out_other (b : Byte) (rest : List Byte) (hq : b ≠ 0x22) (hc : b ≠ 0x2C) :
    separator_commas false (b :: rest) = separator_commas false rest := by
  rw [separator_commas.eq_def]; simp [hq, hc]

set_option maxRecDepth 100000 in
theorem hex_value_plain : ∀ h : Byte, (hex_value h).isSome = true → h ≠ 0x22 ∧ h ≠ 0x5C := by
  decide

theorem sep_escape_char (sg : Bool) (c : Byte) (rest : List Byte) :
    separator_commas true (json_escape_char sg c ++ rest) = separator_commas true rest := by
  rw [json_escape_char_signed_eq sg c]
  rcases json_escape_char_class c with ⟨h, -, hq, hb⟩ | ⟨e, h, -, -, -⟩ | ⟨x3, x4, h, -, h3, h4⟩
  · rw [h]; exact sep_in_plain c rest hq hb
  · rw [h]; exact sep_in_escape e rest
  · rw [h]
    show separator_commas true (0x5C :: 0x75 :: 0x30 :: 0x30 :: x3 :: x4 :: rest) = _
    rw [sep_in_escape, sep_in_plain _ _ (by decide) (by decide),
      sep_in_plain _ _ (by decide) (by decide),
      sep_in_plain _ _ (hex_value_plain x3 h3).1 (hex_value_plain x3 h3).2,
      sep_in_plain _ _ (hex_value_plain x4 h4).1 (hex_value_plain x4 h4).2]

theorem sep_escape (sg : Bool) (s rest : List Byte) :
    separator_commas true (json_escape sg s ++ rest) = separator_commas true rest := by
  induction s with
  | nil => rfl
  | cons c s ih => rw [json_escape_cons, List.append_assoc, sep_escape_char, ih]

theorem ascii_quote : ascii "\"" = [0x22] := by decide
theorem ascii_colon : ascii ":" = [0x3A] := by decide
theorem ascii_comma : ascii "," = [0x2C] := by decide
theorem ascii_lbrace : ascii "\x7b" = [0x7B] := by decide
theorem ascii_rbrace : ascii "\x7d" = [0x7D] := by decide
theorem ascii_newline : ascii "\n" = [0x0A] := by decide

theorem spec_field_bytes (sg : Bool) (k v rest : List Byte) :
    spec_field sg k v ++ rest
      = 0x22 :: (json_escape sg k
          ++ (0x22 :: 0x3A :: 0x22 :: (json_escape sg v ++ (0x22 :: rest)))) := by
  simp only [spec_field, ascii_quote, ascii_colon, List.append_assoc, List.singleton_append,
    List.cons_append, List.nil_append]

theorem sep_field (sg : Bool) (k v rest : List Byte) :
    separator_commas false (spec_field sg k v ++ rest) = separator_commas false rest := by
  rw [spec_field_bytes, sep_out_quote, sep_escape, sep_in_quote, sep_out_other _ _ (by decide) (by decide),
    sep_out_quote, sep_escape, sep_in_quote]

theorem sep_fields (sg : Bool) (es : List (List Byte × List Byte)) (rest : List Byte) :
    separator_commas false
        (List.intercalate [0x2C] (es.map (fun e => spec_field sg e.1 e.2)) ++ rest)
      = separator_commas false rest + (es.length - 1) := by
  induction es with
  | nil => simp [List.intercalate]
  | cons e es ih =>
    cases es with
    | nil => simp [List.intercalate, sep_field]
    | cons e2 es =>
      rw [List.map_cons] at ih
      rw [List.map_cons, List.map_cons, intercalate_cons_cons, List.append_assoc,
        List.append_assoc, sep_field, List.singleton_append, sep_out_comma, ih]
      simp only [List.length_cons]
      omega

theorem spec_object_bytes (sg : Bool) (es : List (List Byte × List Byte)) :
    spec_object sg es
      = 0x7B :: (List.intercalate [0x2C] (es.map (fun e => spec_field sg e.1 e.2))
          ++ [0x7D, 0x0A]) := by
  simp [spec_object, ascii_lbrace, ascii_rbrace, ascii_newline, ascii_comma]

theorem sep_object (sg : Bool) (es : List (List Byte × List Byte)) :
    separator_commas false (spec_object sg es) = es.length - 1 := by
  have h0 : separator_commas false [0x7D, 0x0A] = 0 := by decide
  rw [spec_object_bytes, sep_out_other _ _ (by decide) (by decide), sep_fields, h0]
  omega

/-! ### Reading the object back -/

theorem read_string_escape (sg : Bool) (s rest : List Byte) :
    read_string (0x22 :: (json_escape sg s ++ 0x22 :: rest)) = some (s, rest) := by
  rw [read_string]; simp [read_chars_escape]

theorem skip_ws_cons (b : Byte) (rest : List Byte)
    (h : ¬ (b = 0x20 ∨ b = 0x09 ∨ b = 0x0A ∨ b = 0x0D)) : skip_ws (b :: rest) = b :: rest := by
  rw [skip_ws, if_neg h]

theorem read_member_field (sg : Bool) (k v rest : List Byte) :
    read_member (spec_field sg k v ++ rest) = some ((k, v), rest) := by
  rw [spec_field_bytes, read_member, read_string_escape]
  simp only
  rw [skip_ws_cons _ _ (by decide)]
  simp only [if_true]
  rw [skip_ws_cons _ _ (by decide), read_string_escape]

theorem skip_ws_field (sg : Bool) (k v t : List Byte) :
    skip_ws (spec_field sg k v ++ t) = spec_field sg k v ++ t := by
  rw [spec_field_bytes, skip_ws_cons _ _ (by decide)]

theorem read_members_fields (sg : Bool) (e : List Byte × List Byte)
    (es : List (List Byte × List Byte)) (rest : List Byte) (fuel : Nat)
    (hf : es.length < fuel) :
    read_members fuel
        (List.intercalate [0x2C] ((e :: es).map (fun e => spec_field sg e.1 e.2))
          ++ 0x7D :: rest)
      = some (e :: es, rest) := by
  induction es generalizing e fuel with
  | nil =>
    obtain ⟨fuel, rfl⟩ : ∃ f, fuel = f + 1 := ⟨fuel - 1, by simp at hf; omega⟩
    simp only [List.map_cons, List.map_nil, List.intercalate, List.intersperse, List.flatten,
      List.append_nil]
    rw [read_members, read_member_field]
    simp only
    rw [skip_ws_cons _ _ (by decide)]
    simp
  | cons e2 es ih =>
    obtain ⟨fuel, rfl⟩ : ∃ f, fuel = f + 1 := ⟨fuel - 1, by simp at hf; omega⟩
    have h2 := ih e2 fuel (by simp at hf ⊢; omega)
    rw [List.map_cons] at h2
    rw [List.map_cons, List.map_cons, intercalate_cons_cons, List.append_assoc,
      List.append_assoc, read_members, read_member_field]
    simp only [List.singleton_append]
    rw [skip_ws_cons _ _ (by decide)]
    simp only [show ¬ ((0x2C : Byte) = 0x7D) by decide, if_false, if_true]
    have hsk : ∀ t : List Byte,
        skip_ws (List.intercalate [0x2C]
            (spec_field sg e2.1 e2.2 :: es.map (fun e => spec_field sg e.1 e.2)) ++ t)
          = List.intercalate [0x2C]
            (spec_field sg e2.1 e2.2 :: es.map (fun e => spec_field sg e.1 e.2)) ++ t := by
      intro t
      cases es with
      | nil =>
        simp only [List.map_nil, List.intercalate, List.intersperse, List.flatten,
          List.append_nil]
        exact skip_ws_field sg _ _ t
      | cons e3 es =>
        rw [List.map_cons, intercalate_cons_cons, List.append_assoc, List.append_assoc]
        exact skip_ws_field sg _ _ _
    rw [hsk, h2]

theorem spec_field_length_pos (sg : Bool) (k v : List Byte) :
    0 < (spec_field sg k v).length := by
  have := congrArg List.length (spec_field_bytes sg k v [])
  simp only [List.append_nil, List.length_cons] at this
  omega

theorem fields_length (sg : Bool) (es : List (List Byte × List Byte)) :
    es.length ≤ (List.intercalate [0x2C] (es.map (fun e => spec_field sg e.1 e.2))).length := by
  induction es with
  | nil => simp
  | cons e es ih =>
    cases es with
    | nil =>
      simp only [List.map_cons, List.map_nil, List.intercalate, List.intersperse, List.flatten,
        List.append_nil, List.length_singleton]
      exact spec_field_length_pos sg e.1 e.2
    | cons e2 es =>
      rw [List.map_cons] at ih
      rw [List.map_cons, List.map_cons, intercalate_cons_cons]
      simp only [List.length_append, List.length_cons, List.length_nil] at ih ⊢
      omega

theorem parse_spec_object (sg : Bool) (es : List (List Byte × List Byte)) :
    parse_object (spec_object sg es) = some es := by
  have hws : skip_ws [(0x0A : Byte)] = [] := by decide
  cases es with
  | nil =>
    have : spec_object sg [] = [0x7B, 0x7D, 0x0A] := by
      rw [spec_object_bytes]; rfl
    rw [this]
    decide
  | cons e es =>
    have hhead : ∃ d t2, List.intercalate [0x2C] ((e :: es).map (fun e => spec_field sg e.1 e.2))
        ++ [0x7D, 0x0A] = d :: t2 ∧ d = 0x22 := by
      cases es with
      | nil =>
        simp only [List.map_cons, List.map_nil, List.intercalate, List.intersperse, List.flatten,
          List.append_nil]
        rw [spec_field_bytes]
        exact ⟨_, _, rfl, rfl⟩
      | cons e3 es =>
        rw [List.map_cons, List.map_cons, intercalate_cons_cons, List.append_assoc,
          List.append_assoc, spec_field_bytes]
        exact ⟨_, _, rfl, rfl⟩
    obtain ⟨d, t2, hd, hd2⟩ := hhead
    have hlen : es.length < (0x7B :: d :: t2).length := by
      have h1 := fields_length sg (e :: es)
      have h2 := congrArg List.length hd
      simp only [List.length_append, List.length_cons, List.length_nil] at h1 h2 ⊢
      omega
    have hm := read_members_fields sg e es [0x0A] _ hlen
    rw [parse_object, spec_object_bytes, skip_ws_cons _ _ (by decide)]
    simp only [if_true]
    rw [hd] at hm ⊢
    rw [skip_ws_cons _ _ (by rw [hd2]; decide)]
    simp only [show ¬ (d = 0x7D) by rw [hd2]; decide, if_false]
    rw [hm]
    simp [hws]

/-! ### Every defined run of `main` -/

theorem main_usage (sg : Bool) (B : Backend) (argv0 : List Byte) :
    main sg B [argv0]
      = some { stdout := []
               stderr := ascii "\x7b\"error\": \"Usage: " ++ c_string argv0
                           ++ ascii " <model_path>\"\x7d" ++ ascii "\n"
               calls := []
               exit_code := 1 } := rfl

theorem emit_entry_inv (sg : Bool) (m : llama_model) (count i : Int) (p p1 : Process)
    (h : emit_entry sg m count i p = some p1) :
    (string_from_buffer 256 (m.meta_key_by_index i 256)).isSome = true
      ∧ (string_from_buffer 2048 (m.meta_val_str_by_index i 2048)).isSome = true := by
  unfold emit_entry at h
  simp only at h
  cases hk : string_from_buffer 256 (m.meta_key_by_index i 256) with
  | none => rw [hk] at h; simp at h
  | some k =>
    cases hv : string_from_buffer 2048 (m.meta_val_str_by_index i 2048) with
    | none => rw [hk, hv] at h; simp at h
    | some v => simp

theorem emit_entries_inv (sg : Bool) (m : llama_model) (count : Int) (idxs : List Nat)
    (p p1 : Process) (h : emit_entries sg m count idxs p = some p1) :
    ∀ i ∈ idxs, (string_from_buffer 256 (m.meta_key_by_index (i : Int) 256)).isSome = true
      ∧ (string_from_buffer 2048 (m.meta_val_str_by_index (i : Int) 2048)).isSome = true := by
  induction idxs generalizing p with
  | nil => intro i hi; simp at hi
  | cons j rest ih =>
    rw [emit_entries] at h
    cases he : emit_entry sg m count (j : Int) p with
    | none => rw [he] at h; simp at h
    | some p2 =>
      rw [he] at h
      simp only at h
      intro i hi
      rcases List.mem_cons.mp hi with rfl | hi
      · exact emit_entry_inv sg m count _ p p2 he
      · exact ih p2 h i hi

theorem main_loaded_object (sg : Bool) (B : Backend) (a0 p : List Byte)
    (rest : List (List Byte)) (m : llama_model)
    (hload : B.model_load_from_file (c_string p) true = some m)
    (hbuf : ∀ i ∈ List.range m.meta_count.toNat,
      (string_from_buffer 256 (m.meta_key_by_index (i : Int) 256)).isSome = true
        ∧ (string_from_buffer 2048 (m.meta_val_str_by_index (i : Int) 2048)).isSome = true) :
    main sg B (a0 :: p :: rest)
      = some { stdout := spec_object sg (read_entries m)
               stderr := []
               calls := [.backend_init, .model_default_params,
                    .model_load_from_file (c_string p) true, .model_meta_count]
                  ++ accessor_calls m.meta_count.toNat ++ [.model_free, .backend_free]
               exit_code := 0 } := by
  rw [main_loaded sg B a0 p rest m
    (fun (i : Nat) => (string_from_buffer 256 (m.meta_key_by_index (i : Int) 256)).getD [])
    (fun (i : Nat) => (string_from_buffer 2048 (m.meta_val_str_by_index (i : Int) 2048)).getD [])
    hload
    (fun i hi => by
      obtain ⟨k, hk⟩ := Option.isSome_iff_exists.mp (hbuf i hi).1
      rw [hk]; simp [hk])
    (fun i hi => by
      obtain ⟨v, hv⟩ := Option.isSome_iff_exists.mp (hbuf i hi).2
      rw [hv]; simp [hv])]
  have hobj := flatMap_range'_intercalate
    (fun (i : Nat) => spec_field sg
      ((string_from_buffer 256 (m.meta_key_by_index (i : Int) 256)).getD [])
      ((string_from_buffer 2048 (m.meta_val_str_by_index (i : Int) 2048)).getD []))
    (ascii ",") ((read_entries m).map (fun e => spec_field sg e.1 e.2)) 0
    (m.meta_count.toNat : Int)
    (by simp [read_entries])
    (by
      intro j hj
      simp only [read_entries, List.length_map, List.length_range] at hj
      simp [read_entries, List.getElem?_range hj])
  simp only [read_entries, List.length_map, List.length_range] at hobj
  simp only [List.range_eq_range', spec_object, read_entries]
  rw [← List.range_eq_range'] at hobj ⊢
  by_cases hc : 0 ≤ m.meta_count
  · rw [Int.toNat_of_nonneg hc] at hobj
    rw [hobj]
  · have h0 : m.meta_count.toNat = 0 := by omega
    simp [h0, List.intercalate]

theorem main_load_failure (sg : Bool) (B : Backend) (a0 p : List Byte)
    (rest : List (List Byte))
    (hload : B.model_load_from_file (c_string p) true = none) :
    main sg B (a0 :: p :: rest)
      = some { stdout := []
               stderr := ascii "\x7b\"error\": \"Failed to load model metadata from "
                           ++ json_escape sg (c_string p) ++ ascii "\"\x7d" ++ ascii "\n"
               calls := [.backend_init, .model_default_params,
                    .model_load_from_file (c_string p) true, .backend_free]
               exit_code := 1 } := by
  unfold main
  simp only [List.length_cons, show ¬ (rest.length + 1 + 1 < 2) by omega, if_false,
    List.getElem?_cons_succ, List.getElem?_cons_zero, hload, Process.call, Process.cout]
  simp

/-- A complete account of the runs of `main` that are defined: a usage
error, a load failure, or the object for the entries read from the buffers. -/
theorem main_cases (sg : Bool) (B : Backend) (argv : List (List Byte)) (r : Run)
    (h : main sg B argv = some r) :
    (∃ a0, argv = [a0] ∧
        r = { stdout := []
              stderr := ascii "\x7b\"error\": \"Usage: " ++ c_string a0
                          ++ ascii " <model_path>\"\x7d" ++ ascii "\n"
              calls := []
              exit_code := 1 })
      ∨ (∃ a0 p rest, argv = a0 :: p :: rest ∧
          B.model_load_from_file (c_string p) true = none ∧
          r = { stdout := []
                stderr := ascii "\x7b\"error\": \"Failed to load model metadata from "
                            ++ json_escape sg (c_string p) ++ ascii "\"\x7d" ++ ascii "\n"
                calls := [.backend_init, .model_default_params,
                     .model_load_from_file (c_string p) true, .backend_free]
                exit_code := 1 })
      ∨ (∃ a0 p rest m, argv = a0 :: p :: rest ∧
          B.model_load_from_file (c_string p) true = some m ∧
          r = { stdout := spec_object sg (read_entries m)
                stderr := []
                calls := [.backend_init, .model_default_params,
                     .model_load_from_file (c_string p) true, .model_meta_count]
                   ++ accessor_calls m.meta_count.toNat ++ [.model_free, .backend_free]
                exit_code := 0 }) := by
  match argv, h with
  | [], h => simp [main] at h
  | [a0], h =>
    left
    rw [main_usage] at h
    exact ⟨a0, rfl, (Option.some.inj h).symm⟩
  | a0 :: p :: rest, h =>
    right
    cases hload : B.model_load_from_file (c_string p) true with
    | none =>
      left
      rw [main_load_failure sg B a0 p rest hload] at h
      exact ⟨a0, p, rest, rfl, hload, (Option.some.inj h).symm⟩
    | some m =>
      right
      have hbuf : ∀ i ∈ List.range m.meta_count.toNat,
          (string_from_buffer 256 (m.meta_key_by_index (i : Int) 256)).isSome = true
            ∧ (string_from_buffer 2048 (m.meta_val_str_by_index (i : Int) 2048)).isSome
                = true := by
        have h2 := h
        unfold main at h2
        simp only [List.length_cons, show ¬ (rest.length + 1 + 1 < 2) by omega, if_false,
          List.getElem?_cons_succ, List.getElem?_cons_zero, hload] at h2
        split at h2
        · simp at h2
        · next p2 he => exact emit_entries_inv sg m m.meta_count _ _ p2 he
      rw [main_loaded_object sg B a0 p rest m hload hbuf] at h
      exact ⟨a0, p, rest, m, rfl, hload, (Option.some.inj h).symm⟩

theorem skip_ws_space (rest : List Byte) : skip_ws (0x20 :: rest) = skip_ws rest := by
  rw [skip_ws]; simp

theorem load_failure_text (sg : Bool) (q : List Byte) :
    ascii "\x7b\"error\": \"Failed to load model metadata from "
        ++ json_escape sg q ++ ascii "\"\x7d" ++ ascii "\n"
      = 0x7B :: 0x22 :: (json_escape sg (ascii "error") ++ 0x22 :: 0x3A :: 0x20 :: 0x22 ::
          (json_escape sg (ascii "Failed to load model metadata from " ++ q)
            ++ 0x22 :: [0x7D, 0x0A])) := by
  have h1 : json_escape sg (ascii "error") = ascii "error" := by cases sg <;> decide
  have h2 : json_escape sg (ascii "Failed to load model metadata from ")
      = ascii "Failed to load model metadata from " := by cases sg <;> decide
  have h3 : ascii "\x7b\"error\": \"Failed to load model metadata from "
      = 0x7B :: 0x22 :: (ascii "error" ++ 0x22 :: 0x3A :: 0x20 :: 0x22 ::
          ascii "Failed to load model metadata from ") := by decide
  have h4 : ascii "\"\x7d" ++ ascii "\n" = [0x22, 0x7D, 0x0A] := by decide
  rw [json_escape_append, h1, h2, h3, List.append_assoc, h4]
  simp [List.append_assoc]

theorem load_failure_parses (sg : Bool) (q : List Byte) :
    parse_object (ascii "\x7b\"error\": \"Failed to load model metadata from "
        ++ json_escape sg q ++ ascii "\"\x7d" ++ ascii "\n")
      = some [(ascii "error", ascii "Failed to load model metadata from " ++ q)] := by
  have hws : skip_ws [(0x0A : Byte)] = [] := by decide
  rw [load_failure_text, parse_object, skip_ws_cons _ _ (by decide)]
  simp only [if_true]
  rw [skip_ws_cons _ _ (by decide)]
  simp only [show ¬ ((0x22 : Byte) = 0x7D) by decide, if_false, List.length_cons]
  rw [read_members, read_member, read_string_escape]
  simp only
  rw [skip_ws_cons _ _ (by decide)]
  simp only [if_true]
  rw [skip_ws_space, skip_ws_cons _ _ (by decide), read_string_escape]
  simp only
  rw [skip_ws_cons _ _ (by decide)]
  simp [hws]

/-- On every defined run at most one of the two streams is written and the
exit code is 0 or 1; with exit code 0 standard error is empty and standard
output parses as an object; with exit code 1 standard output is empty and
standard error is not; the exit code is 0 exactly when a model path was given
and the backend returned a handle. -/
theorem main_streams (sg : Bool) (B : Backend) (argv : List (List Byte)) (r : Run)
    (h : main sg B argv = some r) :
    (r.stdout = [] ∨ r.stderr = [])
      ∧ ((r.exit_code = 0 ∧ r.stderr = [] ∧ (parse_object r.stdout).isSome = true)
          ∨ (r.exit_code = 1 ∧ r.stdout = [] ∧ r.stderr ≠ []))
      ∧ (r.exit_code = 0 ↔ ∃ a0 p rest m, argv = a0 :: p :: rest
            ∧ B.model_load_from_file (c_string p) true = some m) := by
  rcases main_cases sg B argv r h with ⟨a0, ha, hr⟩ | ⟨a0, p, rest, ha, hl, hr⟩
      | ⟨a0, p, rest, m, ha, hl, hr⟩
  · subst hr ha
    refine ⟨Or.inl rfl, Or.inr ⟨rfl, rfl, by simp [ascii]⟩, ?_⟩
    constructor
    · intro h0; exact absurd h0 (show ¬ ((1 : Int) = 0) by decide)
    · rintro ⟨a, p, rest, m, he, -⟩; simp at he
  · subst hr ha
    refine ⟨Or.inl rfl, Or.inr ⟨rfl, rfl, by simp [ascii]⟩, ?_⟩
    constructor
    · intro h0; exact absurd h0 (show ¬ ((1 : Int) = 0) by decide)
    · rintro ⟨a, p2, rest2, m, he, hm⟩
      simp only [List.cons.injEq] at he
      obtain ⟨-, rfl, -⟩ := he
      rw [hl] at hm
      exact absurd hm (by simp)
  · subst hr ha
    refine ⟨Or.inr rfl, Or.inl ⟨rfl, rfl, by simp [parse_spec_object]⟩, ?_⟩
    constructor
    · intro _; exact ⟨a0, p, rest, m, rfl, hl⟩
    · intro _; rfl

/-! ### The object on standard output -/

theorem example_backend_load (t : List (List Byte × List Byte)) :
    (example_backend t).model_load_from_file (c_string (ascii "m.gguf")) true
      = some (table_model t) := rfl

theorem c_string_of_not_mem (l : List Byte) (h : (0 : Byte) ∉ l) : c_string l = l := by
  unfold c_string
  rw [List.takeWhile_eq_self_iff]
  intro b hb
  simp only [ne_eq, decide_eq_true_eq]
  intro h0
  exact h (h0 ▸ hb)

theorem buffered_eq_self (t : List (List Byte × List Byte))
    (h : ∀ e ∈ t, e.1.length ≤ 255 ∧ (0 : Byte) ∉ e.1 ∧ e.2.length ≤ 2047 ∧ (0 : Byte) ∉ e.2) :
    buffered t = t := by
  unfold buffered
  conv_rhs => rw [← List.map_id t]
  apply List.map_congr_left
  intro e he
  obtain ⟨h1, h2, h3, h4⟩ := h e he
  simp only [key_text, val_text, List.take_of_length_le h1, List.take_of_length_le h3,
    c_string_of_not_mem _ h2, c_string_of_not_mem _ h4, id]

/-- C7 (amended): when the loaded model has the metadata table `t`, standard
output is exactly the opening brace, the fields quote, `json_escape` of the key
text, quote, colon, quote, `json_escape` of the value text, quote, in table
order with a single comma between consecutive fields and no whitespace, the
closing brace and one newline, where the key text is the table key as read
through the 256-byte buffer (cut to 255 bytes and at its first NUL) and the
value text the table value read through the 2048-byte buffer (2047 bytes).
Duplicate keys are kept. When every key has at most 255 bytes, every value
at most 2047 and none holds a NUL, the texts are the table entries themselves. -/
theorem main_stdout_object (char_signed : Bool) (backend : Backend) (argv0 path : List Byte)
    (more : List (List Byte)) (t : List (List Byte × List Byte))
    (hload : backend.model_load_from_file (c_string path) true = some (table_model t)) :
    (main char_signed backend (argv0 :: path :: more)).map Run.stdout
        = some (spec_object char_signed (buffered t))
      ∧ ((∀ e ∈ t, e.1.length ≤ 255 ∧ (0 : Byte) ∉ e.1 ∧ e.2.length ≤ 2047 ∧ (0 : Byte) ∉ e.2) →
          (main char_signed backend (argv0 :: path :: more)).map Run.stdout
            = some (spec_object char_signed t)) := by
  have h := main_table char_signed backend argv0 path more t hload
  refine ⟨by rw [h]; rfl, fun hfit => ?_⟩
  rw [h, buffered_eq_self t hfit]
  rfl

set_option maxRecDepth 1000000 in
/-- C7 for the single entry (general.name, Llama-3-8B): standard output is
exactly that one-field object and a newline. -/
theorem main_stdout_object_witness :
    (main true (example_backend [(ascii "general.name", ascii "Llama-3-8B")])
        [ascii "prog", ascii "m.gguf"]).map Run.stdout
      = some (ascii "\x7b\"general.name\":\"Llama-3-8B\"\x7d\n") :=
  (main_stdout_object true (example_backend [(ascii "general.name", ascii "Llama-3-8B")])
    (ascii "prog") (ascii "m.gguf") [] [(ascii "general.name", ascii "Llama-3-8B")]
    (example_backend_load _)).1.trans (by decide)

set_option maxRecDepth 1000000 in
/-- C7 as stated fails for a table whose only key has 256 bytes: standard
output is not the object built from the whole key. -/
theorem stdout_differs_for_long_key :
    (main false (example_backend [(List.replicate 256 0x61, ascii "v")])
        [ascii "prog", ascii "m.gguf"]).map Run.stdout
      ≠ some (spec_object false [(List.replicate 256 0x61, ascii "v")]) := by
  decide

theorem spec_field_end (sg : Bool) (k v : List Byte) :
    ∃ pre, spec_field sg k v = pre ++ [0x22] :=
  ⟨_, by rw [spec_field, ascii_quote]⟩

theorem fields_end_quote (sg : Bool) (e : List Byte × List Byte)
    (es : List (List Byte × List Byte)) :
    ∃ pre, List.intercalate [0x2C] ((e :: es).map (fun e => spec_field sg e.1 e.2))
      = pre ++ [0x22] := by
  induction es generalizing e with
  | nil =>
    simp only [List.map_cons, List.map_nil, List.intercalate, List.intersperse, List.flatten,
      List.append_nil]
    exact spec_field_end sg e.1 e.2
  | cons e2 es ih =>
    obtain ⟨pre, hpre⟩ := ih e2
    rw [List.map_cons] at hpre
    rw [List.map_cons, List.map_cons, intercalate_cons_cons, hpre]
    exact ⟨spec_field sg e.1 e.2 ++ [0x2C] ++ pre, by simp [List.append_assoc]⟩

theorem no_trailing_comma (sg : Bool) (es : List (List Byte × List Byte)) :
    ¬ ([0x2C, 0x7D, 0x0A] <:+ spec_object sg es) := by
  intro h
  cases es with
  | nil =>
    have e : spec_object sg [] = [0x7B, 0x7D, 0x0A] := by rw [spec_object_bytes]; rfl
    rw [e] at h
    have := h.eq_of_length rfl
    exact absurd this (by decide)
  | cons e es =>
    obtain ⟨pre, hpre⟩ := fields_end_quote sg e es
    have e2 : spec_object sg (e :: es) = (0x7B :: pre) ++ [0x22, 0x7D, 0x0A] := by
      rw [spec_object_bytes, hpre]; simp
    rw [e2] at h
    have h2 : [(0x22 : Byte), 0x7D, 0x0A] <:+ (0x7B :: pre) ++ [0x22, 0x7D, 0x0A] :=
      List.suffix_append _ _
    have h3 := List.suffix_of_suffix_length_le h h2 (by simp)
    have := h3.eq_of_length rfl
    exact absurd this (by decide)

theorem buffered_keys (t : List (List Byte × List Byte))
    (h : ∀ e ∈ t, e.1.length ≤ 255 ∧ (0 : Byte) ∉ e.1) :
    (buffered t).map Prod.fst = t.map Prod.fst := by
  unfold buffered
  rw [List.map_map]
  apply List.map_congr_left
  intro e he
  obtain ⟨h1, h2⟩ := h e he
  simp only [Function.comp, key_text, List.take_of_length_le h1, c_string_of_not_mem _ h2]

/-- C8 (amended): for a loaded model with any metadata table `t` of `n`
entries, standard output is the object of `n` fields separated by commas, with
exactly `n - 1` (0 for `n = 0`) commas outside string literals and no comma
before the closing brace; the reference parser reads it as an object with
exactly `n` string-valued members, which are the entries as read through the
buffers, in order; its `n` keys are distinct when the key texts read through
the 256-byte buffer are distinct, in particular when the source keys are
distinct, at most 255 bytes long and free of NUL; for `n = 0` it is `{}` and a
newline. -/
theorem main_object_well_formed (char_signed : Bool) (backend : Backend)
    (argv0 path : List Byte) (more : List (List Byte)) (t : List (List Byte × List Byte))
    (hload : backend.model_load_from_file (c_string path) true = some (table_model t)) :
    ∃ out, (main char_signed backend (argv0 :: path :: more)).map Run.stdout = some out
      ∧ out = ascii "\x7b"
          ++ List.intercalate (ascii ",")
              ((buffered t).map (fun e => spec_field char_signed e.1 e.2))
          ++ ascii "\x7d" ++ ascii "\n"
      ∧ ((buffered t).map (fun e => spec_field char_signed e.1 e.2)).length = t.length
      ∧ separator_commas false out = t.length - 1
      ∧ ¬ (ascii ",\x7d\n" <:+ out)
      ∧ parse_object out = some (buffered t)
      ∧ (buffered t).length = t.length
      ∧ (((buffered t).map Prod.fst).Nodup →
          ∃ ms, parse_object out = some ms ∧ ms.length = t.length ∧ (ms.map Prod.fst).Nodup)
      ∧ ((t.map Prod.fst).Nodup → (∀ e ∈ t, e.1.length ≤ 255 ∧ (0 : Byte) ∉ e.1) →
          ∃ ms, parse_object out = some ms ∧ ms.length = t.length ∧ (ms.map Prod.fst).Nodup)
      ∧ (t = [] → out = ascii "\x7b\x7d\n") := by
  have h := main_table char_signed backend argv0 path more t hload
  have hlen : (buffered t).length = t.length := by simp [buffered]
  have hparse := parse_spec_object char_signed (buffered t)
  have hsuf : ascii ",\x7d\n" = [0x2C, 0x7D, 0x0A] := by decide
  refine ⟨spec_object char_signed (buffered t), by rw [h]; rfl, rfl, by simp [buffered], ?_, ?_,
    hparse, hlen, ?_, ?_, ?_⟩
  · rw [sep_object, hlen]
  · rw [hsuf]; exact no_trailing_comma char_signed (buffered t)
  · intro hnd
    exact ⟨buffered t, hparse, hlen, hnd⟩
  · intro hnd hfit
    exact ⟨buffered t, hparse, hlen, by rw [buffered_keys t hfit]; exact hnd⟩
  · intro ht
    rw [ht, spec_object_bytes]
    rfl

/-- C8 for the empty table: standard output is `{}` and a newline. -/
theorem main_object_well_formed_witness :
    (main true (example_backend []) [ascii "prog", ascii "m.gguf"]).map Run.stdout
      = some (ascii "\x7b\x7d\n") := by
  obtain ⟨out, h1, -, -, -, -, -, -, -, -, h10⟩ :=
    main_object_well_formed true (example_backend []) (ascii "prog") (ascii "m.gguf") [] []
      (example_backend_load [])
  rw [h1, h10 rfl]

set_option maxRecDepth 1000000 in
/-- C8 as stated fails for two distinct source keys that share their first
255 bytes: the object read back from standard output has two members and
only one key. -/
theorem distinct_long_keys_collide :
    ([(List.replicate 255 0x61 ++ ascii "x", ascii "1"),
        (List.replicate 255 0x61 ++ ascii "y", ascii "2")].map Prod.fst).Nodup
      ∧ ((main false (example_backend
              [(List.replicate 255 0x61 ++ ascii "x", ascii "1"),
               (List.replicate 255 0x61 ++ ascii "y", ascii "2")])
            [ascii "prog", ascii "m.gguf"]).bind (fun r => parse_object r.stdout)).map
          (fun ms => (ms.length, (ms.map Prod.fst).dedup.length))
        = some (2, 1) := by
  decide

set_option maxRecDepth 1000000 in
/-- C9 at the failing input: started as `C:\gguf.exe` with no model path, the
run exits with code 1, leaves standard output empty and writes to standard
error a text that the reference parser does not accept as a JSON object. -/
theorem usage_error_backslash_not_json (char_signed : Bool) (backend : Backend) :
    (main char_signed backend [ascii "C:\\gguf.exe"]).map Run.exit_code = some 1
      ∧ (main char_signed backend [ascii "C:\\gguf.exe"]).map Run.stdout = some []
      ∧ (main char_signed backend [ascii "C:\\gguf.exe"]).map Run.stderr
          = some (ascii "\x7b\"error\": \"Usage: C:\\gguf.exe <model_path>\"\x7d\n")
      ∧ (main char_signed backend [ascii "C:\\gguf.exe"]).bind
          (fun r => parse_object r.stderr) = none := by
  rw [main_usage]
  decide

set_option maxRecDepth 1000000 in
/-- C10 at the failing input: for the program name `my"tool` the usage
message embeds the name as it is, and standard error is not a JSON object,
while the same text with the name passed through `json_escape` is the object
with the single key `error`. -/
theorem usage_error_quote_not_json (char_signed : Bool) (backend : Backend) :
    (main char_signed backend [ascii "my\"tool"]).map Run.stderr
        = some (ascii "\x7b\"error\": \"Usage: my\"tool <model_path>\"\x7d\n")
      ∧ (main char_signed backend [ascii "my\"tool"]).bind (fun r => parse_object r.stderr) = none
      ∧ parse_object (ascii "\x7b\"error\": \"Usage: " ++ json_escape char_signed (ascii "my\"tool")
            ++ ascii " <model_path>\"\x7d\n")
          = some [(ascii "error", ascii "Usage: my\"tool <model_path>")] := by
  rw [main_usage]
  cases char_signed <;> decide

/-! ### Buffers and their texts -/

theorem c_string_length_lt (l : List Byte) (h : (0 : Byte) ∈ l) :
    (c_string l).length < l.length := by
  unfold c_string
  induction l with
  | nil => simp at h
  | cons a l ih =>
    by_cases ha : a = 0
    · simp [List.takeWhile_cons, ha]
    · have hl : (0 : Byte) ∈ l := by
        rcases List.mem_cons.mp h with h0 | h0
        · exact absurd h0.symm ha
        · exact h0
      have := ih hl
      simp only [ne_eq] at this
      simp only [List.takeWhile_cons, ne_eq, ha, not_false_eq_true, decide_True, if_true,
        List.length_cons]
      omega

theorem c_string_prefix (l : List Byte) : c_string l <+: l :=
  List.takeWhile_prefix _

theorem string_from_buffer_bound (size : Nat) (buf k : List Byte)
    (h : string_from_buffer size buf = some k) :
    k.length + 1 ≤ size ∧ k <+: buf.take size ∧ (0 : Byte) ∉ k := by
  unfold string_from_buffer at h
  split at h
  · next h0 =>
    have hk : k = c_string (buf.take size) := (Option.some.inj h).symm
    have h1 := c_string_length_lt _ h0
    have h2 : (buf.take size).length ≤ size := by
      rw [List.length_take]; exact Nat.min_le_left _ _
    refine ⟨by rw [hk]; omega, by rw [hk]; exact c_string_prefix _, ?_⟩
    rw [hk]
    intro hmem
    have := List.mem_takeWhile_imp hmem
    simp at this
  · simp at h

theorem read_entries_bound (m : llama_model) :
    ∀ e ∈ read_entries m, e.1.length ≤ 255 ∧ e.2.length ≤ 2047 := by
  intro e he
  simp only [read_entries, List.mem_map, List.mem_range] at he
  obtain ⟨i, -, rfl⟩ := he
  constructor
  · cases hk : string_from_buffer 256 (m.meta_key_by_index (i : Int) 256) with
    | none => simp
    | some k =>
      have := (string_from_buffer_bound 256 _ k hk).1
      simp only [Option.getD_some]
      omega
  · cases hv : string_from_buffer 2048 (m.meta_val_str_by_index (i : Int) 2048) with
    | none => simp
    | some v =>
      have := (string_from_buffer_bound 2048 _ v hv).1
      simp only [Option.getD_some]
      omega

theorem string_from_buffer_isSome (size : Nat) (buf : List Byte) :
    (string_from_buffer size buf).isSome = true ↔ (0 : Byte) ∈ buf.take size := by
  unfold string_from_buffer
  split <;> simp [*]

theorem main_unterminated (sg : Bool) (B : Backend) (a0 p : List Byte)
    (rest : List (List Byte)) (m : llama_model)
    (hload : B.model_load_from_file (c_string p) true = some m)
    (hbad : ∃ i ∈ List.range m.meta_count.toNat,
      (0 : Byte) ∉ (m.meta_key_by_index (i : Int) 256).take 256
        ∨ (0 : Byte) ∉ (m.meta_val_str_by_index (i : Int) 2048).take 2048) :
    main sg B (a0 :: p :: rest) = none := by
  cases hm : main sg B (a0 :: p :: rest) with
  | none => rfl
  | some r =>
    exfalso
    obtain ⟨i, hi, hbad⟩ := hbad
    have h2 := hm
    unfold main at h2
    simp only [List.length_cons, show ¬ (rest.length + 1 + 1 < 2) by omega, if_false,
      List.getElem?_cons_succ, List.getElem?_cons_zero, hload] at h2
    split at h2
    · simp at h2
    · next p2 he =>
      have := emit_entries_inv sg m m.meta_count _ _ p2 he i hi
      rw [string_from_buffer_isSome, string_from_buffer_isSome] at this
      rcases hbad with hb | hb
      · exact hb this.1
      · exact hb this.2

theorem c_string_split (l : List Byte) (h : (0 : Byte) ∈ l) :
    ∃ rest, l = c_string l ++ 0 :: rest := by
  unfold c_string
  induction l with
  | nil => simp at h
  | cons a l ih =>
    by_cases ha : a = 0
    · exact ⟨l, by simp [List.takeWhile_cons, ha]⟩
    · have hl : (0 : Byte) ∈ l := by
        rcases List.mem_cons.mp h with h0 | h0
        · exact absurd h0.symm ha
        · exact h0
      obtain ⟨rest, hrest⟩ := ih hl
      simp only [ne_eq] at hrest
      refine ⟨rest, ?_⟩
      simp only [List.takeWhile_cons, ne_eq, ha, not_false_eq_true, decide_True, if_true,
        List.cons_append, List.cons.injEq, true_and]
      exact hrest

theorem string_from_buffer_split (size : Nat) (buf k : List Byte)
    (h : string_from_buffer size buf = some k) :
    ∃ rest, buf.take size = k ++ 0 :: rest := by
  unfold string_from_buffer at h
  split at h
  · next h0 =>
    have hk : k = c_string (buf.take size) := (Option.some.inj h).symm
    rw [hk]
    exact c_string_split _ h0
  · simp at h

theorem string_from_buffer_none (size : Nat) (buf : List Byte) :
    string_from_buffer size buf = none ↔ (0 : Byte) ∉ buf.take size := by
  unfold string_from_buffer
  split <;> simp [*]

theorem read_entries_length (m : llama_model) :
    (read_entries m).length = m.meta_count.toNat := by
  simp [read_entries]

theorem read_entries_get (m : llama_model) (i : Nat) (k v : List Byte)
    (h : (read_entries m)[i]? = some (k, v))
    (hk : (0 : Byte) ∈ (m.meta_key_by_index (i : Int) 256).take 256)
    (hv : (0 : Byte) ∈ (m.meta_val_str_by_index (i : Int) 2048).take 2048) :
    string_from_buffer 256 (m.meta_key_by_index (i : Int) 256) = some k
      ∧ string_from_buffer 2048 (m.meta_val_str_by_index (i : Int) 2048) = some v := by
  have hi : i < m.meta_count.toNat := by
    have := (List.getElem?_eq_some_iff.mp h).1
    rwa [read_entries_length] at this
  obtain ⟨k2, hk2⟩ := Option.isSome_iff_exists.mp ((string_from_buffer_isSome 256 _).mpr hk)
  obtain ⟨v2, hv2⟩ := Option.isSome_iff_exists.mp ((string_from_buffer_isSome 2048 _).mpr hv)
  simp only [read_entries, List.getElem?_map, List.getElem?_range hi, Option.map_some', hk2, hv2,
    Option.getD_some, Option.some.injEq, Prod.mk.injEq] at h
  rw [hk2, hv2, h.1, h.2]
  exact ⟨rfl, rfl⟩

/-- C14 (amended): for a loaded model, when the backend leaves a NUL byte
within the 256 bytes of the key buffer and within the 2048 bytes of the value
buffer at every index `0..count-1`, the run is defined and standard output is
the object of `count` entries whose key text at index `i` is exactly the
bytes of the key buffer before its first NUL (the buffer is that text, a NUL
and a rest, and the text holds no NUL) and whose value text is exactly the
bytes of the value buffer before its first NUL; every key text has at most
255 bytes and every value text at most 2047, so obtaining them reads no byte
past the end of a buffer. When some buffer holds no NUL byte,
`std::string(buf)` scans past the end of the buffer and the run is undefined.
A text is obtained from a buffer exactly when the buffer holds a NUL, and it
is then the part of the buffer before the first NUL. -/
theorem buffer_text_bounds (char_signed : Bool) (backend : Backend) (argv0 path : List Byte)
    (more : List (List Byte)) (m : llama_model)
    (hload : backend.model_load_from_file (c_string path) true = some m) :
    ((∀ i ∈ List.range m.meta_count.toNat,
          (0 : Byte) ∈ (m.meta_key_by_index (i : Int) 256).take 256
            ∧ (0 : Byte) ∈ (m.meta_val_str_by_index (i : Int) 2048).take 2048) →
        ∃ r, main char_signed backend (argv0 :: path :: more) = some r
          ∧ r.stdout = spec_object char_signed (read_entries m)
          ∧ (∀ e ∈ read_entries m, e.1.length ≤ 255 ∧ e.2.length ≤ 2047)
          ∧ (read_entries m).length = m.meta_count.toNat
          ∧ ∀ (i : Nat) (k v : List Byte), (read_entries m)[i]? = some (k, v) →
              (∃ rest, (m.meta_key_by_index (i : Int) 256).take 256 = k ++ 0 :: rest)
                ∧ (0 : Byte) ∉ k
                ∧ (∃ rest, (m.meta_val_str_by_index (i : Int) 2048).take 2048 = v ++ 0 :: rest)
                ∧ (0 : Byte) ∉ v)
      ∧ ((∃ i ∈ List.range m.meta_count.toNat,
            (0 : Byte) ∉ (m.meta_key_by_index (i : Int) 256).take 256
              ∨ (0 : Byte) ∉ (m.meta_val_str_by_index (i : Int) 2048).take 2048) →
          main char_signed backend (argv0 :: path :: more) = none)
      ∧ (∀ buf k, string_from_buffer 256 buf = some k →
          k.length ≤ 255 ∧ k <+: buf.take 256 ∧ (0 : Byte) ∉ k)
      ∧ (∀ buf v, string_from_buffer 2048 buf = some v →
          v.length ≤ 2047 ∧ v <+: buf.take 2048 ∧ (0 : Byte) ∉ v)
      ∧ (∀ (size : Nat) (buf k : List Byte), string_from_buffer size buf = some k →
          ∃ rest, buf.take size = k ++ 0 :: rest)
      ∧ (∀ (size : Nat) (buf : List Byte),
          (string_from_buffer size buf = none ↔ (0 : Byte) ∉ buf.take size)
            ∧ ((0 : Byte) ∈ buf.take size → ∃ k, string_from_buffer size buf = some k)) := by
  refine ⟨fun hbuf => ?_, main_unterminated char_signed backend argv0 path more m hload, ?_, ?_,
    string_from_buffer_split, ?_⟩
  · refine ⟨_, main_loaded_object char_signed backend argv0 path more m hload ?_, rfl,
      read_entries_bound m, read_entries_length m, ?_⟩
    · intro i hi
      rw [string_from_buffer_isSome, string_from_buffer_isSome]
      exact hbuf i hi
    · intro i k v hget
      have hi : i ∈ List.range m.meta_count.toNat := by
        have := (List.getElem?_eq_some_iff.mp hget).1
        rw [read_entries_length] at this
        exact List.mem_range.mpr this
      obtain ⟨hk, hv⟩ := read_entries_get m i k v hget (hbuf i hi).1 (hbuf i hi).2
      exact ⟨string_from_buffer_split 256 _ k hk, (string_from_buffer_bound 256 _ k hk).2.2,
        string_from_buffer_split 2048 _ v hv, (string_from_buffer_bound 2048 _ v hv).2.2⟩
  · intro buf k hk
    have := string_from_buffer_bound 256 buf k hk
    exact ⟨by omega, this.2⟩
  · intro buf v hv
    have := string_from_buffer_bound 2048 buf v hv
    exact ⟨by omega, this.2⟩
  · intro size buf
    refine ⟨string_from_buffer_none size buf, fun h0 => ?_⟩
    exact Option.isSome_iff_exists.mp ((string_from_buffer_isSome size buf).mpr h0)

set_option maxRecDepth 1000000 in
/-- C14 for a table with the entry (general.name, Llama-3-8B) and an entry
whose value holds a NUL: the run is defined, standard output is the object of
the key and value texts up to their first NUL, and the first key text is the
twelve bytes that stand before the NUL in its buffer. -/
theorem buffer_text_bounds_witness :
    ∃ r, main true
          (example_backend [(ascii "general.name", ascii "Llama-3-8B"),
            (ascii "note", ascii "ab" ++ [0] ++ ascii "cd")])
          [ascii "prog", ascii "m.gguf"] = some r
      ∧ r.stdout = ascii "\x7b\"general.name\":\"Llama-3-8B\",\"note\":\"ab\"\x7d\n"
      ∧ ∃ rest, ((table_model [(ascii "general.name", ascii "Llama-3-8B"),
            (ascii "note", ascii "ab" ++ [0] ++ ascii "cd")]).meta_key_by_index 0 256).take 256
          = ascii "general.name" ++ 0 :: rest := by
  obtain ⟨r, hr, hs, -, -, hget⟩ :=
    (buffer_text_bounds true
      (example_backend [(ascii "general.name", ascii "Llama-3-8B"),
        (ascii "note", ascii "ab" ++ [0] ++ ascii "cd")])
      (ascii "prog") (ascii "m.gguf") []
      (table_model [(ascii "general.name", ascii "Llama-3-8B"),
        (ascii "note", ascii "ab" ++ [0] ++ ascii "cd")]) rfl).1 (by decide)
  exact ⟨r, hr, hs.trans (by decide),
    (hget 0 (ascii "general.name") (ascii "Llama-3-8B") (by decide)).1⟩

set_option maxRecDepth 1000000 in
/-- C14 as stated fails when the backend leaves 256 bytes without a NUL in
the key buffer: building the key string scans past the end of the buffer. -/
theorem unterminated_key_overruns :
    (List.replicate 256 (0x61 : Byte)).length = 256
      ∧ string_from_buffer 256 (List.replicate 256 0x61) = none
      ∧ main false unterminated_backend [ascii "prog", ascii "m.gguf"] = none := by
  decide

/-! ### The error paths -/

/-- C11: when the load of the model path returns the null handle, standard
error is exactly the text `{"error": "Failed to load model metadata from `,
`json_escape` of the path, `"}` and a newline; the exit code is 1, nothing is
written to standard output, no metadata query is made and the last backend
call, after the failed load, is `llama_backend_free`. -/
theorem main_load_failure_report (char_signed : Bool) (backend : Backend)
    (argv0 path : List Byte) (more : List (List Byte))
    (hload : backend.model_load_from_file (c_string path) true = none) :
    ∃ r, main char_signed backend (argv0 :: path :: more) = some r
      ∧ r.stderr = ascii "\x7b\"error\": \"Failed to load model metadata from "
          ++ json_escape char_signed (c_string path) ++ ascii "\"\x7d" ++ ascii "\n"
      ∧ r.exit_code = 1
      ∧ r.stdout = []
      ∧ (∀ c ∈ r.calls, c.is_metadata_query = false)
      ∧ r.calls = [.backend_init, .model_default_params,
          .model_load_from_file (c_string path) true, .backend_free] := by
  refine ⟨_, main_load_failure char_signed backend argv0 path more hload, rfl, rfl, rfl, ?_, rfl⟩
  intro c hc
  simp only [List.mem_cons, List.mem_singleton, List.not_mem_nil, or_false] at hc
  rcases hc with rfl | rfl | rfl | rfl <;> rfl

set_option maxRecDepth 1000000 in
/-- C11 for the path `no"file.gguf`, which the example backend does not load. -/
theorem main_load_failure_report_witness :
    (main true (example_backend []) [ascii "prog", ascii "no\"file.gguf"]).map
        (fun r => (r.stderr, r.exit_code))
      = some (ascii "\x7b\"error\": \"Failed to load model metadata from no\\\"file.gguf\"\x7d\n",
          1) := by
  obtain ⟨r, h, h1, h2, -⟩ := main_load_failure_report true (example_backend [])
    (ascii "prog") (ascii "no\"file.gguf") [] rfl
  rw [h, Option.map_some', h1, h2]
  decide

theorem main_extra_arguments (sg : Bool) (B : Backend) (a0 p : List Byte)
    (more : List (List Byte)) : main sg B (a0 :: p :: more) = main sg B [a0, p] := by
  unfold main
  simp

/-- C12 (amended): a usage error is reported exactly when the model path is
missing. For the program name alone the run exits with code 1, writes the
usage error object to standard error and makes no backend call. With a
program name and one or more further arguments the run is the run for the
first of them as model path, the others being ignored: it starts with
`llama_backend_init` and the load of that path, so it is not a usage error. -/
theorem main_usage_only_without_path (char_signed : Bool) (backend : Backend)
    (argv0 : List Byte) :
    main char_signed backend [argv0]
        = some { stdout := []
                 stderr := ascii "\x7b\"error\": \"Usage: " ++ c_string argv0
                             ++ ascii " <model_path>\"\x7d" ++ ascii "\n"
                 calls := []
                 exit_code := 1 }
      ∧ ∀ (path : List Byte) (more : List (List Byte)),
          main char_signed backend (argv0 :: path :: more) = main char_signed backend [argv0, path]
            ∧ ∀ r, main char_signed backend (argv0 :: path :: more) = some r →
                r.calls.take 3 = [.backend_init, .model_default_params,
                  .model_load_from_file (c_string path) true] := by
  refine ⟨main_usage char_signed backend argv0, fun path more => ⟨main_extra_arguments _ _ _ _ _, ?_⟩⟩
  intro r hr
  rcases main_cases char_signed backend _ r hr with ⟨a0, ha, -⟩ | ⟨a0, p, rest, ha, -, h⟩
      | ⟨a0, p, rest, m, ha, -, h⟩
  · simp at ha
  · simp only [List.cons.injEq] at ha
    obtain ⟨-, rfl, -⟩ := ha
    rw [h]; rfl
  · simp only [List.cons.injEq] at ha
    obtain ⟨-, rfl, -⟩ := ha
    rw [h]; rfl

set_option maxRecDepth 1000000 in
/-- C12 as stated fails for an argument vector with an extra argument after
the model path: the run loads the model and exits with code 0 after backend
calls, with nothing on standard error. -/
theorem extra_argument_is_no_usage_error :
    (main false (example_backend []) [ascii "prog", ascii "m.gguf", ascii "extra"]).map
        (fun r => (r.exit_code, r.stderr, r.calls))
      = some (0, [], [.backend_init, .model_default_params,
          .model_load_from_file (ascii "m.gguf") true, .model_meta_count,
          .model_free, .backend_free]) := by
  decide

/-- C13: with the program name as only argument, standard error is exactly
`{"error": "Usage: `, the program name, ` <model_path>"}` and a newline, the
words `<model_path>` kept as they are; the exit code is 1 and nothing is
written to standard output. For the name `prog` the text is
`{"error": "Usage: prog <model_path>"}`. -/
theorem main_usage_report (char_signed : Bool) (backend : Backend) (argv0 : List Byte) :
    (main char_signed backend [argv0]).map Run.stderr
        = some (ascii "\x7b\"error\": \"Usage: " ++ c_string argv0
            ++ ascii " <model_path>\"\x7d" ++ ascii "\n")
      ∧ (main char_signed backend [argv0]).map Run.exit_code = some 1
      ∧ (main char_signed backend [argv0]).map Run.stdout = some []
      ∧ (main char_signed backend [ascii "prog"]).map Run.stderr
        = some (ascii "\x7b\"error\": \"Usage: prog <model_path>\"\x7d\n") := by
  rw [main_usage, main_usage]
  refine ⟨rfl, rfl, rfl, ?_⟩
  decide

/-! ### The trace of backend calls -/

theorem mem_accessor_calls (n : Nat) (c : Call) :
    c ∈ accessor_calls n ↔ ∃ i : Nat, i < n ∧
      (c = .model_meta_key_by_index (i : Int) 256
        ∨ c = .model_meta_val_str_by_index (i : Int) 2048) := by
  simp [accessor_calls, List.mem_flatMap]

theorem accessor_calls_succ (n : Nat) :
    accessor_calls (n + 1) = accessor_calls n
      ++ [.model_meta_key_by_index (n : Int) 256, .model_meta_val_str_by_index (n : Int) 2048] := by
  simp [accessor_calls, List.range_succ, List.flatMap_append]

theorem count_accessor_calls_other (n : Nat) (c : Call) (hc : c.is_accessor = false) :
    (accessor_calls n).count c = 0 := by
  rw [List.count_eq_zero]
  intro hmem
  obtain ⟨i, -, h | h⟩ := (mem_accessor_calls n c).mp hmem <;> rw [h] at hc <;> simp [Call.is_accessor] at hc

theorem filter_accessor_calls (n : Nat) :
    (accessor_calls n).filter Call.is_accessor = accessor_calls n := by
  rw [List.filter_eq_self]
  intro c hc
  obtain ⟨i, -, h | h⟩ := (mem_accessor_calls n c).mp hc <;> rw [h] <;> rfl

theorem count_key_accessor_calls (n i : Nat) :
    (accessor_calls n).count (.model_meta_key_by_index (i : Int) 256)
      = if i < n then 1 else 0 := by
  induction n with
  | zero => simp [accessor_calls]
  | succ n ih =>
    rw [accessor_calls_succ, List.count_append, ih]
    by_cases h : i = n
    · subst h; simp
    · have h2 : ¬ ((n : Int) = (i : Int)) := by omega
      simp only [List.count_cons, List.count_nil, beq_iff_eq, Call.model_meta_key_by_index.injEq,
        h2, false_and, if_false, reduceCtorEq]
      split <;> split <;> omega

theorem count_val_accessor_calls (n i : Nat) :
    (accessor_calls n).count (.model_meta_val_str_by_index (i : Int) 2048)
      = if i < n then 1 else 0 := by
  induction n with
  | zero => simp [accessor_calls]
  | succ n ih =>
    rw [accessor_calls_succ, List.count_append, ih]
    by_cases h : i = n
    · subst h; simp
    · have h2 : ¬ ((n : Int) = (i : Int)) := by omega
      simp only [List.count_cons, List.count_nil, beq_iff_eq,
        Call.model_meta_val_str_by_index.injEq, h2, false_and, if_false, reduceCtorEq]
      split <;> split <;> omega

theorem split_at_unique {α : Type} (A B pre post : List α) (x : α) (hA : x ∉ A) (hB : x ∉ B)
    (h : A ++ x :: B = pre ++ x :: post) : pre = A ∧ post = B := by
  induction A generalizing pre with
  | nil =>
    cases pre with
    | nil => simp at h; exact ⟨rfl, h.symm⟩
    | cons y pre =>
      simp only [List.nil_append, List.cons_append, List.cons.injEq] at h
      exact absurd (h.2 ▸ List.mem_append_right pre (List.mem_cons_self x post)) hB
  | cons a A ih =>
    cases pre with
    | nil =>
      simp only [List.cons_append, List.nil_append, List.cons.injEq] at h
      exact absurd (h.1 ▸ List.mem_cons_self a A) hA
    | cons y pre =>
      simp only [List.cons_append, List.cons.injEq] at h
      obtain ⟨h1, h2⟩ := ih pre (fun hx => hA (List.mem_cons_of_mem a hx)) h.2
      exact ⟨by rw [h.1, h1], h2⟩

theorem success_calls_split (q : List Byte) (n : Nat) :
    [Call.backend_init, .model_default_params, .model_load_from_file q true, .model_meta_count]
        ++ accessor_calls n ++ [.model_free, .backend_free]
      = ([Call.backend_init, .model_default_params, .model_load_from_file q true,
            .model_meta_count] ++ accessor_calls n) ++ .model_free :: [.backend_free] := rfl

theorem model_free_not_before (q : List Byte) (n : Nat) :
    Call.model_free ∉ [Call.backend_init, .model_default_params,
      .model_load_from_file q true, .model_meta_count] ++ accessor_calls n := by
  intro h
  rcases List.mem_append.mp h with h | h
  · simp at h
  · obtain ⟨i, -, h | h⟩ := (mem_accessor_calls n _).mp h <;> simp at h

/-- C15: on every defined run `llama_backend_init` and `llama_backend_free`
are called equally often and at most once (both once, or neither on a usage
error); `llama_model_free` is called at most once, and exactly once if and
only if a model path was given and the load returned a handle; whenever it
is called, the calls after it are exactly the one call `llama_backend_free`,
so the release comes before it and no metadata query follows the release.
This covers the usage error, the load failure and the success path. -/
theorem backend_calls_paired (char_signed : Bool) (backend : Backend)
    (argv : List (List Byte)) (r : Run) (hrun : main char_signed backend argv = some r) :
    r.calls.count .backend_init = r.calls.count .backend_free
      ∧ r.calls.count .backend_init ≤ 1
      ∧ r.calls.count .model_free ≤ 1
      ∧ (r.calls.count .model_free = 1 ↔ ∃ a0 p rest m, argv = a0 :: p :: rest
            ∧ backend.model_load_from_file (c_string p) true = some m)
      ∧ (∀ pre post, r.calls = pre ++ .model_free :: post → post = [.backend_free])
      ∧ (∀ pre post, r.calls = pre ++ .model_free :: post →
            ∀ c ∈ post, c.is_metadata_query = false) := by
  have hpost : (∀ pre post, r.calls = pre ++ .model_free :: post → post = [.backend_free]) →
      (∀ pre post, r.calls = pre ++ .model_free :: post →
        ∀ c ∈ post, c.is_metadata_query = false) := by
    intro h pre post hsplit c hc
    rw [h pre post hsplit, List.mem_singleton] at hc
    rw [hc]; rfl
  rcases main_cases char_signed backend argv r hrun with ⟨a0, ha, hr⟩ | ⟨a0, p, rest, ha, hl, hr⟩
      | ⟨a0, p, rest, m, ha, hl, hr⟩
  · have hc : r.calls = [] := by rw [hr]
    have hno : ∀ pre post, r.calls = pre ++ .model_free :: post → post = [.backend_free] := by
      intro pre post h; rw [hc] at h; simp at h
    refine ⟨by rw [hc]; rfl, by rw [hc]; simp, by rw [hc]; simp, ?_, hno, hpost hno⟩
    rw [hc, ha]
    constructor
    · intro h; simp at h
    · rintro ⟨a, p, rest, m, he, -⟩; simp at he
  · have hc : r.calls = [.backend_init, .model_default_params,
        .model_load_from_file (c_string p) true, .backend_free] := by rw [hr]
    have hno : ∀ pre post, r.calls = pre ++ .model_free :: post → post = [.backend_free] := by
      intro pre post h
      have hm : Call.model_free ∈ r.calls := by rw [h]; simp
      rw [hc] at hm; simp at hm
    refine ⟨by rw [hc]; simp, by rw [hc]; simp, by rw [hc]; simp, ?_, hno, hpost hno⟩
    rw [hc, ha]
    constructor
    · intro h; simp at h
    · rintro ⟨a, p2, rest2, m, he, hm⟩
      simp only [List.cons.injEq] at he
      obtain ⟨-, rfl, -⟩ := he
      rw [hl] at hm
      exact absurd hm (by simp)
  · have hc : r.calls = [.backend_init, .model_default_params,
        .model_load_from_file (c_string p) true, .model_meta_count]
        ++ accessor_calls m.meta_count.toNat ++ [.model_free, .backend_free] := by rw [hr]
    have h0 : ∀ c : Call, c.is_accessor = false →
        (accessor_calls m.meta_count.toNat).count c = 0 :=
      count_accessor_calls_other _
    have hno : ∀ pre post, r.calls = pre ++ .model_free :: post → post = [.backend_free] := by
      intro pre post h
      rw [hc, success_calls_split] at h
      exact (split_at_unique _ _ pre post _ (model_free_not_before _ _) (by simp) h).2
    refine ⟨?_, ?_, ?_, ?_, hno, hpost hno⟩
    · rw [hc]; simp [List.count_append, h0 .backend_init rfl, h0 .backend_free rfl]
    · rw [hc]; simp [List.count_append, h0 .backend_init rfl]
    · rw [hc]; simp [List.count_append, h0 .model_free rfl]
    · constructor
      · intro _; exact ⟨a0, p, rest, m, ha, hl⟩
      · intro _; rw [hc]; simp [List.count_append, h0 .model_free rfl]

set_option maxRecDepth 1000000 in
/-- C15 for a successful run over a table of one entry: one
`llama_backend_init`, one `llama_model_free`, one `llama_backend_free`. -/
theorem backend_calls_paired_witness :
    (main true (example_backend [(ascii "k", ascii "v")]) [ascii "prog", ascii "m.gguf"]).map
        (fun r => (r.calls.count .backend_init, r.calls.count .model_free,
          r.calls.count .backend_free))
      = some (1, 1, 1) := by
  cases hm : main true (example_backend [(ascii "k", ascii "v")]) [ascii "prog", ascii "m.gguf"] with
  | none => exact absurd hm (by decide)
  | some r =>
    have h := backend_calls_paired true _ _ r hm
    have h1 : r.calls.count .model_free = 1 :=
      h.2.2.2.1.mpr ⟨ascii "prog", ascii "m.gguf", [], table_model [(ascii "k", ascii "v")], rfl, rfl⟩
    have h2 : r.calls.count .backend_init = 1 := by
      have := main_table true (example_backend [(ascii "k", ascii "v")]) (ascii "prog")
        (ascii "m.gguf") [] [(ascii "k", ascii "v")] rfl
      rw [hm] at this
      rw [Option.some.inj this]
      decide
    simp only [Option.map_some', h1, h2, ← h.1]

/-- C16: for a loaded model on a defined run, `llama_model_meta_count` is
called exactly once; the accessor calls are, in this order, the key call and
the value call for index 0, then for index 1, and so on up to the count less
one, so every index passed lies in `[0, count)` and each such index is passed
exactly once to each accessor; with a count of zero or less no accessor call
is made. -/
theorem accessor_indices_in_range (char_signed : Bool) (backend : Backend)
    (argv0 path : List Byte) (more : List (List Byte)) (m : llama_model) (r : Run)
    (hload : backend.model_load_from_file (c_string path) true = some m)
    (hrun : main char_signed backend (argv0 :: path :: more) = some r) :
    r.calls.count .model_meta_count = 1
      ∧ r.calls.filter Call.is_accessor
          = (List.range m.meta_count.toNat).flatMap (fun (i : Nat) =>
              [.model_meta_key_by_index (i : Int) 256,
               .model_meta_val_str_by_index (i : Int) 2048])
      ∧ (∀ (i : Int) (size : Nat),
            (Call.model_meta_key_by_index i size ∈ r.calls
              ∨ Call.model_meta_val_str_by_index i size ∈ r.calls) →
            0 ≤ i ∧ i < m.meta_count)
      ∧ (∀ i : Nat, (i : Int) < m.meta_count →
            r.calls.count (.model_meta_key_by_index (i : Int) 256) = 1
              ∧ r.calls.count (.model_meta_val_str_by_index (i : Int) 2048) = 1)
      ∧ (m.meta_count ≤ 0 → ∀ c ∈ r.calls, c.is_accessor = false) := by
  rcases main_cases char_signed backend _ r hrun with ⟨a0, ha, -⟩ | ⟨a0, p, rest, ha, hl, -⟩
      | ⟨a0, p, rest, m2, ha, hl, hr⟩
  · simp at ha
  · simp only [List.cons.injEq] at ha
    obtain ⟨-, rfl, -⟩ := ha
    rw [hload] at hl; simp at hl
  · simp only [List.cons.injEq] at ha
    obtain ⟨-, rfl, -⟩ := ha
    rw [hload] at hl
    obtain rfl : m = m2 := Option.some.inj hl
    have hc : r.calls = [.backend_init, .model_default_params,
        .model_load_from_file (c_string path) true, .model_meta_count]
        ++ accessor_calls m.meta_count.toNat ++ [.model_free, .backend_free] := by rw [hr]
    have hmem : ∀ c : Call, c.is_accessor = true →
        (c ∈ r.calls ↔ c ∈ accessor_calls m.meta_count.toNat) := by
      intro c hacc
      rw [hc]
      simp only [List.mem_append, List.mem_cons, List.mem_singleton, List.not_mem_nil, or_false]
      constructor
      · rintro ((h | h) | h)
        · rcases h with h | h | h | h <;> (rw [h] at hacc; simp [Call.is_accessor] at hacc)
        · exact h
        · rcases h with h | h <;> (rw [h] at hacc; simp [Call.is_accessor] at hacc)
      · intro h; exact Or.inl (Or.inr h)
    refine ⟨?_, ?_, ?_, ?_, ?_⟩
    · rw [hc]; simp [List.count_append, count_accessor_calls_other _ .model_meta_count rfl]
    · rw [hc, List.filter_append, List.filter_append, filter_accessor_calls]
      simp [List.filter, Call.is_accessor, accessor_calls]
    · intro i size h
      have h2 : ∃ j : Nat, j < m.meta_count.toNat ∧ i = (j : Int) := by
        rcases h with h | h
        · obtain ⟨j, hj, h3 | h3⟩ := (mem_accessor_calls _ _).mp ((hmem (.model_meta_key_by_index i size) rfl).mp h)
          · simp only [Call.model_meta_key_by_index.injEq] at h3; exact ⟨j, hj, h3.1⟩
          · simp at h3
        · obtain ⟨j, hj, h3 | h3⟩ := (mem_accessor_calls _ _).mp ((hmem (.model_meta_val_str_by_index i size) rfl).mp h)
          · simp at h3
          · simp only [Call.model_meta_val_str_by_index.injEq] at h3; exact ⟨j, hj, h3.1⟩
      obtain ⟨j, hj, rfl⟩ := h2
      omega
    · intro i hi
      have hin : i < m.meta_count.toNat := by omega
      rw [hc]
      simp [List.count_append, count_key_accessor_calls, count_val_accessor_calls, hin]
    · intro hle c hcm
      have h0 : m.meta_count.toNat = 0 := by omega
      rw [hc, h0] at hcm
      simp only [accessor_calls, List.range_zero, List.flatMap_nil, List.append_nil,
        List.mem_append, List.mem_cons, List.mem_singleton, List.not_mem_nil, or_false] at hcm
      rcases hcm with (h | h | h | h) | h | h <;> rw [h] <;> rfl

set_option maxRecDepth 1000000 in
/-- C16 for a table of two entries: the accessor calls are key 0, value 0,
key 1, value 1. -/
theorem accessor_indices_in_range_witness :
    (main true (example_backend [(ascii "a", ascii "1"), (ascii "b", ascii "2")])
        [ascii "prog", ascii "m.gguf"]).map (fun r => r.calls.filter Call.is_accessor)
      = some [.model_meta_key_by_index 0 256, .model_meta_val_str_by_index 0 2048,
          .model_meta_key_by_index 1 256, .model_meta_val_str_by_index 1 2048] := by
  cases hm : main true (example_backend [(ascii "a", ascii "1"), (ascii "b", ascii "2")])
      [ascii "prog", ascii "m.gguf"] with
  | none => exact absurd hm (by decide)
  | some r =>
    have h := (accessor_indices_in_range true _ (ascii "prog") (ascii "m.gguf") []
      (table_model [(ascii "a", ascii "1"), (ascii "b", ascii "2")]) r rfl hm).2.1
    rw [Option.map_some', h]
    rfl

/-! ### Signedness and lengths -/

theorem char_value_control (sg : Bool) (c : Byte) :
    (0x00 ≤ char_value sg c ∧ char_value sg c ≤ 0x1F) ↔ c.val ≤ 0x1F := by
  have hlt := c.isLt
  unfold char_value
  split
  · next h => constructor <;> intro h2 <;> omega
  · constructor <;> intro h2 <;> omega

/-- C17: `json_escape` gives the same output for every byte sequence
whether `char` is signed or unsigned; under either signedness the range test
`'\x00' <= c && c <= '\x1f'` holds exactly for the bytes 0x00..0x1F, and a
high byte 0x80..0xFF is emitted unchanged, never formatted as `\u`. -/
theorem json_escape_signedness (s : List Byte) :
    json_escape true s = json_escape false s
      ∧ (∀ (char_signed : Bool) (c : Byte),
          (0x00 ≤ char_value char_signed c ∧ char_value char_signed c ≤ 0x1F) ↔ c.val ≤ 0x1F)
      ∧ (∀ (char_signed : Bool) (c : Byte), 0x80 ≤ c.val →
          json_escape_char char_signed c = [c]) := by
  refine ⟨?_, char_value_control, ?_⟩
  · rw [json_escape_eq_flatMap, json_escape_eq_flatMap]
    congr 1
    funext c
    exact json_escape_char_signed_eq true c
  · intro sg c hc
    refine json_escape_char_plain sg c ?_ ?_ (by omega)
    · intro h; rw [h] at hc; exact absurd hc (by decide)
    · intro h; rw [h] at hc; exact absurd hc (by decide)

theorem json_escape_char_length (sg : Bool) (c : Byte) :
    1 ≤ (json_escape_char sg c).length ∧ (json_escape_char sg c).length ≤ 6
      ∧ ((json_escape_char sg c).length = 1 ↔ (c ≠ 0x22 ∧ c ≠ 0x5C ∧ 0x20 ≤ c.val)) := by
  have hplain : (c ≠ 0x22 ∧ c ≠ 0x5C ∧ 0x20 ≤ c.val) → (json_escape_char sg c).length = 1 := by
    rintro ⟨h1, h2, h3⟩
    rw [json_escape_char_plain sg c h1 h2 h3]; rfl
  rw [json_escape_char_signed_eq sg c] at hplain ⊢
  rcases json_escape_char_class c with ⟨h, h20, hq, hb⟩ | ⟨e, h, -, -, -⟩ | ⟨x3, x4, h, -, -, -⟩
  · rw [h]; exact ⟨by simp, by simp, fun _ => ⟨hq, hb, h20⟩, fun _ => rfl⟩
  · rw [h] at hplain ⊢
    refine ⟨by simp, by simp, fun h1 => by simp at h1, hplain⟩
  · rw [h] at hplain ⊢
    refine ⟨by simp, by simp, fun h1 => by simp at h1, hplain⟩

theorem json_escape_length_bounds (sg : Bool) (s : List Byte) :
    s.length ≤ (json_escape sg s).length ∧ (json_escape sg s).length ≤ 6 * s.length
      ∧ ((json_escape sg s).length = s.length
          ↔ ∀ b ∈ s, b ≠ 0x22 ∧ b ≠ 0x5C ∧ 0x20 ≤ b.val) := by
  induction s with
  | nil => simp
  | cons c s ih =>
    obtain ⟨h1, h2, h3⟩ := json_escape_char_length sg c
    obtain ⟨i1, i2, i3⟩ := ih
    rw [json_escape_cons, List.length_append, List.length_cons]
    refine ⟨by omega, by omega, ?_⟩
    constructor
    · intro h b hb
      have hc : (json_escape_char sg c).length = 1 := by omega
      have hs : (json_escape sg s).length = s.length := by omega
      rcases List.mem_cons.mp hb with rfl | hb
      · exact h3.mp hc
      · exact i3.mp hs b hb
    · intro h
      have hc := h3.mpr (h c (List.mem_cons_self c s))
      have hs := i3.mpr (fun b hb => h b (List.mem_cons_of_mem c hb))
      omega

/-- C18: for every byte sequence `s` the length of `json_escape s` is at
least the length of `s` and at most 6 times it, and equals the length of `s`
exactly when `s` holds no quote, no backslash and no byte below 0x20; so the
escaped form of a key text taken from the 256-byte buffer has at most 1530
bytes and that of a value text from the 2048-byte buffer at most 12282, and
on every successful run standard output is the object of entries whose
escaped keys and values stay within these bounds. -/
theorem json_escape_length (char_signed : Bool) (s : List Byte) :
    s.length ≤ (json_escape char_signed s).length
      ∧ (json_escape char_signed s).length ≤ 6 * s.length
      ∧ ((json_escape char_signed s).length = s.length
          ↔ ∀ b ∈ s, b ≠ 0x22 ∧ b ≠ 0x5C ∧ 0x20 ≤ b.val)
      ∧ (∀ buf k, string_from_buffer 256 buf = some k →
          (json_escape char_signed k).length ≤ 1530)
      ∧ (∀ buf v, string_from_buffer 2048 buf = some v →
          (json_escape char_signed v).length ≤ 12282)
      ∧ (∀ (backend : Backend) (argv : List (List Byte)) (r : Run),
          main char_signed backend argv = some r → r.exit_code = 0 →
          ∃ es, r.stdout = spec_object char_signed es
            ∧ ∀ e ∈ es, (json_escape char_signed e.1).length ≤ 1530
                ∧ (json_escape char_signed e.2).length ≤ 12282) := by
  obtain ⟨h1, h2, h3⟩ := json_escape_length_bounds char_signed s
  refine ⟨h1, h2, h3, ?_, ?_, ?_⟩
  · intro buf k hk
    have hb := (string_from_buffer_bound 256 buf k hk).1
    have := (json_escape_length_bounds char_signed k).2.1
    omega
  · intro buf v hv
    have hb := (string_from_buffer_bound 2048 buf v hv).1
    have := (json_escape_length_bounds char_signed v).2.1
    omega
  · intro backend argv r hrun hexit
    rcases main_cases char_signed backend argv r hrun with ⟨a0, -, hr⟩ | ⟨a0, p, rest, -, -, hr⟩
        | ⟨a0, p, rest, m, -, -, hr⟩
    · rw [hr] at hexit; exact absurd hexit (show ¬ ((1 : Int) = 0) by decide)
    · rw [hr] at hexit; exact absurd hexit (show ¬ ((1 : Int) = 0) by decide)
    · refine ⟨read_entries m, by rw [hr], ?_⟩
      intro e he
      obtain ⟨hk, hv⟩ := read_entries_bound m e he
      have k6 := (json_escape_length_bounds char_signed e.1).2.1
      have v6 := (json_escape_length_bounds char_signed e.2).2.1
      constructor <;> omega

end GgufMetadataGet
